import Mathlib

/-! Verification of the snapshot service of `rd_burndown`
(`src/rd_burndown/snapshot.py` together with the parts of
`src/rd_burndown/models.py` it reads).

Modelling conventions:
SQLite `REAL` values (`estimated_hours` and the derived hour fields) are
modelled as rationals; dates are proleptic Gregorian ordinals (`Nat`,
exactly Python's `date.toordinal`, so `weekday = (ordinal + 6) % 7` with
Monday = 0); the `jpholiday` collaborator is a boolean holiday predicate
passed as a parameter; a raised `ValueError` is modelled as an error
result; SQL result rows are modelled as lists of records. -/

namespace RdBurndown

/-- Python `date.weekday()` on an ordinal day number: Monday = 0 … Sunday = 6.
`date.fromordinal 1` (0001-01-01) is a Monday. -/
def pyWeekday (d : Nat) : Nat := (d + 6) % 7

/-- `SnapshotService._count_business_days`: the while-loop over calendar days
in `[s, e)`, counting days that are neither Saturday/Sunday nor holidays.
The guard `e ≤ s` models both the early `start_date >= end_date` return and
loop exhaustion. -/
def countBusinessDays (isHol : Nat → Bool) (s e : Nat) : Nat :=
  if e ≤ s then 0
  else (if pyWeekday s < 5 && !isHol s then 1 else 0) + countBusinessDays isHol (s + 1) e
termination_by e - s
decreasing_by omega

/-- The `start_date`/`due_date` columns of a `versions` row, after
`datetime.strptime`: `none` models a NULL column or an unparsable string
(both make `_calculate_ideal_remaining` return 0 through the same guard). -/
structure VersionInfo where
  start_date : Option Nat
  due_date : Option Nat
deriving DecidableEq, Repr

/-- `SnapshotService._calculate_ideal_remaining`. Note `total - elapsed` is
truncated `Nat` subtraction, which is exactly Python's
`max(0, total_business_days - elapsed_business_days)`. -/
def calcIdealRemaining (isHol : Nat → Bool) (vi : VersionInfo) (targetDate : Nat)
    (initialScope : ℚ) : ℚ :=
  match vi.start_date, vi.due_date with
  | some s, some d =>
      let total := countBusinessDays isHol s d
      let elapsed := countBusinessDays isHol s targetDate
      if total ≤ 0 then 0
      else
        let remaining := total - elapsed
        max 0 (initialScope * (remaining : ℚ) / (total : ℚ))
  | _, _ => 0

/-- One row of the `issues` table, restricted to the columns the snapshot
service reads. -/
structure Issue where
  id : Nat
  project_id : Nat
  version_id : Option Nat
  parent_id : Option Nat
  estimated_hours : Option ℚ
  status_name : String
  assigned_to_id : Option Nat
  assigned_to_name : Option String
  due_date : Option String
deriving DecidableEq, Repr

/-- The ids of a working set, in row order. -/
def idsOf (issues : List Issue) : List Nat := issues.map Issue.id

/-- `issue_dict.get(issue_id)`: the working set is indexed by id. -/
def findIssue (issues : List Issue) (i : Nat) : Option Issue :=
  issues.find? (fun iss => decide (iss.id = i))

/-- `[i for i in issues if i["parent_id"] == issue_id]`. -/
def childrenOf (issues : List Issue) (i : Nat) : List Issue :=
  issues.filter (fun iss => decide (iss.parent_id = some i))

/-- `issue["estimated_hours"] or 0.0` (as a value: `None ↦ 0`, `0.0 ↦ 0.0`). -/
def rawOr0 (iss : Issue) : ℚ := iss.estimated_hours.getD 0

/-- Python truthiness of a nullable float: `None` and `0.0` are falsy. -/
def pyTruthy : Option ℚ → Bool
  | none => false
  | some q => decide (q ≠ 0)

/-- Termination measure for the descent/ascent recursions of the effort
resolver: ids of the working set not yet on the current recursion path. -/
def avail (issues : List Issue) (path : List Nat) : Finset Nat :=
  (idsOf issues).toFinset \ path.toFinset

lemma findIssue_mem {issues : List Issue} {i : Nat} {iss : Issue}
    (h : findIssue issues i = some iss) : iss ∈ issues ∧ iss.id = i := by
  unfold findIssue at h
  have h2 := List.find?_some h
  simp only [decide_eq_true_eq] at h2
  exact ⟨List.mem_of_find?_eq_some h, h2⟩

lemma findIssue_id_mem {issues : List Issue} {i : Nat} {iss : Issue}
    (h : findIssue issues i = some iss) : i ∈ idsOf issues := by
  obtain ⟨h1, h2⟩ := findIssue_mem h
  exact h2 ▸ List.mem_map_of_mem Issue.id h1

lemma avail_lt (issues : List Issue) (path : List Nat) (i : Nat)
    (hmem : i ∈ idsOf issues) (hpath : i ∉ path) :
    (avail issues (i :: path)).card < (avail issues path).card := by
  have hsub : avail issues (i :: path) = (avail issues path).erase i := by
    ext j
    simp only [avail, List.toFinset_cons, Finset.mem_sdiff, Finset.mem_erase,
      Finset.mem_insert, List.mem_toFinset]
    tauto
  rw [hsub]
  exact Finset.card_erase_lt_of_mem (by
    simp only [avail, Finset.mem_sdiff, List.mem_toFinset]
    exact ⟨hmem, hpath⟩)

/-- `SnapshotService._has_all_leaf_estimates`: a leaf must carry a non-null
`estimated_hours`; a non-leaf requires it recursively of all its children.
The `path` argument is only a termination guard for the embedding: the
source recursion has none, and on the subtrees the resolver actually
visits the guard never fires (proved below). -/
def hasAllLeafEstimatesAux (issues : List Issue) (path : List Nat) (i : Nat) : Bool :=
  if _hpath : i ∈ path then false
  else if _hmem : i ∉ idsOf issues then false
  else
    match findIssue issues i with
    | none => false
    | some iss =>
      let children := childrenOf issues i
      if children.isEmpty then iss.estimated_hours.isSome
      else children.all (fun c => hasAllLeafEstimatesAux issues (i :: path) c.id)
termination_by (avail issues path).card
decreasing_by exact avail_lt issues path i (not_not.mp _hmem) _hpath

/-- The value computed by the memoised `calc_effective_estimate` closure of
`SnapshotService._calculate_effective_estimates`: a leaf yields
`estimated_hours or 0.0`; a non-leaf yields the sum of its children's
effective estimates when every child passes `_has_all_leaf_estimates`,
and falls back to its own `estimated_hours or 0.0` otherwise
(`_calculate_leaf_estimate` / `_calculate_parent_estimate` /
`_handle_children_estimates` / `_handle_parent_estimate`). The `path`
argument is again only a termination guard for the embedding; the
memoisation of the source is sound here because the value is a pure
function of the subtree. -/
def calcEffAux (issues : List Issue) (path : List Nat) (i : Nat) : ℚ :=
  if _hpath : i ∈ path then 0
  else if _hmem : i ∉ idsOf issues then 0
  else
    match findIssue issues i with
    | none => 0
    | some iss =>
      let children := childrenOf issues i
      if children.isEmpty then rawOr0 iss
      else if children.all (fun c => hasAllLeafEstimatesAux issues [] c.id) then
        (children.map (fun c => calcEffAux issues (i :: path) c.id)).sum
      else rawOr0 iss
termination_by (avail issues path).card
decreasing_by exact avail_lt issues path i (not_not.mp _hmem) _hpath

/-- The ids for which `_handle_parent_estimate` appends its
"estimates at both parent and child level" warning while resolving the
subtree of `i`, in traversal order (children first: the source computes
`child_estimates` before branching). A warning is recorded exactly when
the fallback branch is taken and both `issue["estimated_hours"]` and some
child's `estimated_hours` are truthy. -/
def warnAux (issues : List Issue) (path : List Nat) (i : Nat) : List Nat :=
  if _hpath : i ∈ path then []
  else if _hmem : i ∉ idsOf issues then []
  else
    match findIssue issues i with
    | none => []
    | some iss =>
      let children := childrenOf issues i
      if children.isEmpty then []
      else
        (children.map (fun c => warnAux issues (i :: path) c.id)).flatten ++
          (if children.all (fun c => hasAllLeafEstimatesAux issues [] c.id) then []
           else if pyTruthy iss.estimated_hours
                    && children.any (fun c => pyTruthy c.estimated_hours) then [i]
           else [])
termination_by (avail issues path).card
decreasing_by exact avail_lt issues path i (not_not.mp _hmem) _hpath

/-- Ascent to a root: `true` iff walking the `parent_id` chain from `i`
(inside the working set) reaches an issue with `parent_id IS NULL`.
These are exactly the ids the traversal of
`_calculate_effective_estimates` visits, hence the domain of the
`estimates` dict it returns. The `path` guard again only rules out
parent cycles, on which the walk cannot reach a root anyway. -/
def rootedAux (issues : List Issue) (path : List Nat) (i : Nat) : Bool :=
  if _hpath : i ∈ path then false
  else if _hmem : i ∉ idsOf issues then false
  else
    match findIssue issues i with
    | none => false
    | some iss =>
      match iss.parent_id with
      | none => true
      | some p => rootedAux issues (i :: path) p
termination_by (avail issues path).card
decreasing_by exact avail_lt issues path i (not_not.mp _hmem) _hpath

/-- `root_issues = [i for i in issues if i["parent_id"] is None]`. -/
def rootsOf (issues : List Issue) : List Issue :=
  issues.filter (fun iss => decide (iss.parent_id = none))

/-- The estimates mapping returned by
`SnapshotService._calculate_effective_estimates`: the traversal starts at
the `parent_id IS NULL` roots only, so an id has an entry iff the chain of
parents from it reaches such a root, and the memoised entry is the pure
recursive value. -/
def effMap (issues : List Issue) (i : Nat) : Option ℚ :=
  if rootedAux issues [] i then some (calcEffAux issues [] i) else none

/-- `issue_estimates.get(issue["id"], 0.0)`. -/
def estOf (issues : List Issue) (i : Nat) : ℚ := (effMap issues i).getD 0

/-- The full warnings list accumulated by
`_calculate_effective_estimates` (identified by the issue id each warning
message interpolates), in traversal order over the roots. -/
def resolverWarnings (issues : List Issue) : List Nat :=
  ((rootsOf issues).map (fun r => warnAux issues [] r.id)).flatten

/-- `p` is a proper ancestor of `i` in the working set: following
`parent_id` links upward from (an issue row with id) `i` reaches `p`. -/
inductive Anc (issues : List Issue) : Nat → Nat → Prop
  | one (iss : Issue) (i p : Nat) (hmem : iss ∈ issues) (hid : iss.id = i)
      (hpar : iss.parent_id = some p) : Anc issues i p
  | more (iss : Issue) (i q p : Nat) (hmem : iss ∈ issues) (hid : iss.id = i)
      (hpar : iss.parent_id = some q) (hq : Anc issues q p) : Anc issues i p

/-- `i` is reachable by child links from some issue of the working set whose
`parent_id` is NULL (equivalently: the parent chain from `i` stays inside
the working set and ends at such a root). -/
inductive Rooted (issues : List Issue) : Nat → Prop
  | root (iss : Issue) (i : Nat) (hmem : iss ∈ issues) (hid : iss.id = i)
      (hpar : iss.parent_id = none) : Rooted issues i
  | child (iss : Issue) (i p : Nat) (hmem : iss ∈ issues) (hid : iss.id = i)
      (hpar : iss.parent_id = some p) (hp : Rooted issues p) : Rooted issues i

/-- `j` lies in the subtree of `r` (including `r` itself). -/
def InSubtree (issues : List Issue) (r j : Nat) : Prop :=
  j = r ∨ Anc issues j r

/-- Spec-side reference predicate for the claim about full leaf coverage:
every leaf descendant of `i` (an issue of the working set lying in the
subtree of `i` that has no children in the working set) carries a
non-null raw estimate. -/
def LeafCovered (issues : List Issue) (i : Nat) : Prop :=
  ∀ iss ∈ issues, InSubtree issues i iss.id → childrenOf issues iss.id = [] →
    iss.estimated_hours ≠ none

lemma id_unique {issues : List Issue} (hN : (idsOf issues).Nodup)
    {a b : Issue} (ha : a ∈ issues) (hb : b ∈ issues) (h : a.id = b.id) : a = b :=
  List.inj_on_of_nodup_map hN ha hb h

lemma mem_childrenOf {issues : List Issue} {c : Issue} {i : Nat} :
    c ∈ childrenOf issues i ↔ c ∈ issues ∧ c.parent_id = some i := by
  simp [childrenOf, List.mem_filter]

lemma mem_rootsOf {issues : List Issue} {r : Issue} :
    r ∈ rootsOf issues ↔ r ∈ issues ∧ r.parent_id = none := by
  simp [rootsOf, List.mem_filter]

lemma findIssue_of_mem {issues : List Issue} (hN : (idsOf issues).Nodup)
    {iss : Issue} (hmem : iss ∈ issues) : findIssue issues iss.id = some iss := by
  cases hfind : findIssue issues iss.id with
  | none =>
    exfalso
    unfold findIssue at hfind
    have := List.find?_eq_none.mp hfind iss hmem
    simp at this
  | some a =>
    obtain ⟨ha, hid⟩ := findIssue_mem hfind
    exact congrArg some (id_unique hN ha hmem hid)

lemma anc_trans {issues : List Issue} {a b c : Nat}
    (h1 : Anc issues a b) (h2 : Anc issues b c) : Anc issues a c := by
  induction h1 with
  | one iss i p hmem hid hpar => exact Anc.more iss i p c hmem hid hpar h2
  | more iss i q p hmem hid hpar hq ih => exact Anc.more iss i q c hmem hid hpar (ih h2)

lemma anc_exists_child {issues : List Issue} {j i : Nat}
    (h : Anc issues j i) : ∃ c ∈ issues, c.parent_id = some i := by
  induction h with
  | one iss _ _ hmem _ hpar => exact ⟨iss, hmem, hpar⟩
  | more _ _ _ _ _ _ _ _ ih => exact ih

lemma anc_decomp {issues : List Issue} {j i : Nat} (h : Anc issues j i) :
    ∃ c ∈ issues, c.parent_id = some i ∧ (c.id = j ∨ Anc issues j c.id) := by
  induction h with
  | one iss i' p hmem hid hpar => exact ⟨iss, hmem, hpar, Or.inl hid⟩
  | more iss i' q p hmem hid hpar hq ih =>
    obtain ⟨c, hc, hcp, hrest⟩ := ih
    refine ⟨c, hc, hcp, Or.inr ?_⟩
    cases hrest with
    | inl hcq => exact Anc.one iss i' c.id hmem hid (hcq ▸ hpar)
    | inr hanc => exact Anc.more iss i' q c.id hmem hid hpar hanc

lemma rooted_exists {issues : List Issue} {i : Nat} (h : Rooted issues i) :
    ∃ iss ∈ issues, iss.id = i := by
  cases h with
  | root iss _ hmem hid _ => exact ⟨iss, hmem, hid⟩
  | child iss _ _ hmem hid _ _ => exact ⟨iss, hmem, hid⟩

lemma anc_cases {issues : List Issue} {i p : Nat} (h : Anc issues i p) :
    ∃ iss ∈ issues, iss.id = i ∧
      (iss.parent_id = some p ∨ ∃ q, iss.parent_id = some q ∧ Anc issues q p) := by
  cases h with
  | one iss _ _ hmem hid hpar => exact ⟨iss, hmem, hid, Or.inl hpar⟩
  | more iss _ q _ hmem hid hpar hq => exact ⟨iss, hmem, hid, Or.inr ⟨q, hpar, hq⟩⟩

lemma rooted_not_anc_self {issues : List Issue} (hN : (idsOf issues).Nodup)
    {i : Nat} (h : Rooted issues i) : ¬ Anc issues i i := by
  induction h with
  | root iss i hmem hid hpar =>
    intro ha
    obtain ⟨iss2, hmem2, hid2, hrest⟩ := anc_cases ha
    have heq : iss2 = iss := id_unique hN hmem2 hmem (hid2.trans hid.symm)
    rw [heq] at hrest
    rcases hrest with hpar2 | ⟨q, hpar2, _⟩ <;> rw [hpar] at hpar2 <;>
      exact Option.noConfusion hpar2
  | child iss i p hmem hid hpar hp ih =>
    intro ha
    obtain ⟨iss2, hmem2, hid2, hrest⟩ := anc_cases ha
    have heq : iss2 = iss := id_unique hN hmem2 hmem (hid2.trans hid.symm)
    rw [heq] at hrest
    rcases hrest with hpar2 | ⟨q, hpar2, hq⟩
    · rw [hpar] at hpar2
      have hpi : p = i := Option.some.inj hpar2
      exact ih (hpi ▸ ha)
    · rw [hpar] at hpar2
      have hqp : p = q := Option.some.inj hpar2
      subst hqp
      exact ih (anc_trans hq (Anc.one iss i p hmem hid hpar))

lemma root_no_anc {issues : List Issue} (hN : (idsOf issues).Nodup)
    {r : Issue} (hmem : r ∈ issues) (hpar : r.parent_id = none) (x : Nat) :
    ¬ Anc issues r.id x := by
  intro h
  cases h with
  | one iss2 _ p hmem2 hid2 hpar2 =>
    have : iss2 = r := id_unique hN hmem2 hmem hid2
    rw [this, hpar] at hpar2
    exact Option.noConfusion hpar2
  | more iss2 _ q p hmem2 hid2 hpar2 hq =>
    have : iss2 = r := id_unique hN hmem2 hmem hid2
    rw [this, hpar] at hpar2
    exact Option.noConfusion hpar2

lemma rooted_of_child {issues : List Issue} {c : Issue} {i : Nat}
    (hc : c ∈ childrenOf issues i) (h : Rooted issues i) : Rooted issues c.id := by
  obtain ⟨hmem, hpar⟩ := mem_childrenOf.mp hc
  exact Rooted.child c c.id i hmem rfl hpar h

/-- The subtree of a child `c` of a rooted node `i` lies inside the subtree
of `i` and avoids `i` itself (rootedness rules out a cycle through `i`). -/
lemma child_subtree {issues : List Issue} (hN : (idsOf issues).Nodup)
    {i : Nat} (hR : Rooted issues i) {c : Issue} (hc : c ∈ childrenOf issues i) :
    ∀ j, InSubtree issues c.id j → InSubtree issues i j ∧ j ≠ i := by
  obtain ⟨hcmem, hcpar⟩ := mem_childrenOf.mp hc
  have hanc_ci : Anc issues c.id i := Anc.one c c.id i hcmem rfl hcpar
  intro j hj
  cases hj with
  | inl hjc =>
    subst hjc
    refine ⟨Or.inr hanc_ci, ?_⟩
    intro hji
    rw [hji] at hanc_ci
    exact rooted_not_anc_self hN hR hanc_ci
  | inr hanc_jc =>
    refine ⟨Or.inr (anc_trans hanc_jc hanc_ci), ?_⟩
    intro hji
    subst hji
    exact rooted_not_anc_self hN hR (anc_trans hanc_jc hanc_ci)

lemma anc_comparable {issues : List Issue} (hN : (idsOf issues).Nodup)
    {i a b : Nat} (h1 : Anc issues i a) (h2 : Anc issues i b) :
    a = b ∨ Anc issues a b ∨ Anc issues b a := by
  induction h1 generalizing b with
  | one iss i2 a2 hmem hid hpar =>
    obtain ⟨iss2, hmem2, hid2, hrest⟩ := anc_cases h2
    have heq : iss2 = iss := id_unique hN hmem2 hmem (hid2.trans hid.symm)
    rw [heq] at hrest
    rcases hrest with hpar2 | ⟨q, hpar2, hq⟩
    · rw [hpar] at hpar2
      exact Or.inl (Option.some.inj hpar2)
    · rw [hpar] at hpar2
      have haq : a2 = q := Option.some.inj hpar2
      refine Or.inr (Or.inl ?_)
      rw [haq]
      exact hq
  | more iss i2 q a2 hmem hid hpar hq ih =>
    obtain ⟨iss2, hmem2, hid2, hrest⟩ := anc_cases h2
    have heq : iss2 = iss := id_unique hN hmem2 hmem (hid2.trans hid.symm)
    rw [heq] at hrest
    rcases hrest with hpar2 | ⟨q2, hpar2, hq2⟩
    · rw [hpar] at hpar2
      have hqb : q = b := Option.some.inj hpar2
      refine Or.inr (Or.inr ?_)
      rw [← hqb]
      exact hq
    · rw [hpar] at hpar2
      have hqq : q = q2 := Option.some.inj hpar2
      subst hqq
      exact ih hq2

lemma subtree_root_unique {issues : List Issue} (hN : (idsOf issues).Nodup)
    {r1 r2 : Issue} (h1 : r1 ∈ rootsOf issues) (h2 : r2 ∈ rootsOf issues)
    {i : Nat} (hi1 : InSubtree issues r1.id i) (hi2 : InSubtree issues r2.id i) :
    r1 = r2 := by
  obtain ⟨hm1, hp1⟩ := mem_rootsOf.mp h1
  obtain ⟨hm2, hp2⟩ := mem_rootsOf.mp h2
  cases hi1 with
  | inl he1 =>
    cases hi2 with
    | inl he2 => exact id_unique hN hm1 hm2 (he1 ▸ he2 ▸ rfl)
    | inr ha2 => exact absurd (he1 ▸ ha2) (root_no_anc hN hm1 hp1 r2.id)
  | inr ha1 =>
    cases hi2 with
    | inl he2 => exact absurd (he2 ▸ ha1) (root_no_anc hN hm2 hp2 r1.id)
    | inr ha2 =>
      rcases anc_comparable hN ha1 ha2 with heq | h12 | h21
      · exact id_unique hN hm1 hm2 heq
      · exact absurd h12 (root_no_anc hN hm1 hp1 r2.id)
      · exact absurd h21 (root_no_anc hN hm2 hp2 r1.id)

lemma rooted_root_exists {issues : List Issue} {i : Nat} (h : Rooted issues i) :
    ∃ r ∈ rootsOf issues, InSubtree issues r.id i := by
  induction h with
  | root iss i hmem hid hpar =>
    exact ⟨iss, mem_rootsOf.mpr ⟨hmem, hpar⟩, Or.inl hid.symm⟩
  | child iss i p hmem hid hpar hp ih =>
    obtain ⟨r, hr, hsub⟩ := ih
    have hanc_ip : Anc issues i p := Anc.one iss i p hmem hid hpar
    refine ⟨r, hr, Or.inr ?_⟩
    cases hsub with
    | inl hpr => exact hpr ▸ hanc_ip
    | inr hanc_pr => exact anc_trans hanc_ip hanc_pr

lemma findIssue_none_iff {issues : List Issue} {i : Nat} :
    findIssue issues i = none ↔ i ∉ idsOf issues := by
  unfold findIssue
  rw [List.find?_eq_none]
  simp only [decide_eq_true_eq]
  constructor
  · intro h hmem
    obtain ⟨iss, hiss, hid⟩ := List.mem_map.mp hmem
    exact h iss hiss hid
  · intro h x hx hxi
    exact h (hxi ▸ List.mem_map_of_mem Issue.id hx)

lemma hasAllLeaf_step {issues : List Issue} {path : List Nat} {i : Nat} {iss : Issue}
    (hpath : i ∉ path) (hfind : findIssue issues i = some iss) :
    hasAllLeafEstimatesAux issues path i =
      (if (childrenOf issues i).isEmpty then iss.estimated_hours.isSome
       else (childrenOf issues i).all
         (fun c => hasAllLeafEstimatesAux issues (i :: path) c.id)) := by
  rw [hasAllLeafEstimatesAux, dif_neg hpath,
    dif_neg (not_not_intro (findIssue_id_mem hfind)), hfind]

lemma calcEff_step {issues : List Issue} {path : List Nat} {i : Nat} {iss : Issue}
    (hpath : i ∉ path) (hfind : findIssue issues i = some iss) :
    calcEffAux issues path i =
      (if (childrenOf issues i).isEmpty then rawOr0 iss
       else if (childrenOf issues i).all
           (fun c => hasAllLeafEstimatesAux issues [] c.id) then
         ((childrenOf issues i).map (fun c => calcEffAux issues (i :: path) c.id)).sum
       else rawOr0 iss) := by
  rw [calcEffAux, dif_neg hpath,
    dif_neg (not_not_intro (findIssue_id_mem hfind)), hfind]

lemma warn_step {issues : List Issue} {path : List Nat} {i : Nat} {iss : Issue}
    (hpath : i ∉ path) (hfind : findIssue issues i = some iss) :
    warnAux issues path i =
      (if (childrenOf issues i).isEmpty then []
       else
         ((childrenOf issues i).map (fun c => warnAux issues (i :: path) c.id)).flatten ++
           (if (childrenOf issues i).all
               (fun c => hasAllLeafEstimatesAux issues [] c.id) then []
            else if pyTruthy iss.estimated_hours
                && (childrenOf issues i).any (fun c => pyTruthy c.estimated_hours) then [i]
            else [])) := by
  rw [warnAux, dif_neg hpath,
    dif_neg (not_not_intro (findIssue_id_mem hfind)), hfind]

lemma rootedAux_step {issues : List Issue} {path : List Nat} {i : Nat} {iss : Issue}
    (hpath : i ∉ path) (hfind : findIssue issues i = some iss) :
    rootedAux issues path i =
      (match iss.parent_id with
       | none => true
       | some p => rootedAux issues (i :: path) p) := by
  rw [rootedAux, dif_neg hpath,
    dif_neg (not_not_intro (findIssue_id_mem hfind)), hfind]

lemma rootedAux_of_none {issues : List Issue} {path : List Nat} {i : Nat}
    (hfind : findIssue issues i = none) : rootedAux issues path i = false := by
  rw [rootedAux]
  by_cases hpath : i ∈ path
  · rw [dif_pos hpath]
  · rw [dif_neg hpath, dif_pos (findIssue_none_iff.mp hfind)]

/-- Soundness of the ascent: if the walk reports a root, `i` is `Rooted`. -/
lemma rooted_of_rootedAux {issues : List Issue} :
    ∀ n path i, (avail issues path).card ≤ n → rootedAux issues path i = true →
      Rooted issues i := by
  intro n
  induction n with
  | zero =>
    intro path i hcard htrue
    exfalso
    by_cases hpath : i ∈ path
    · rw [rootedAux, dif_pos hpath] at htrue
      exact Bool.false_ne_true htrue
    · cases hfind : findIssue issues i with
      | none => rw [rootedAux_of_none hfind] at htrue; exact Bool.false_ne_true htrue
      | some iss =>
        have hin : i ∈ avail issues path := by
          simp only [avail, Finset.mem_sdiff, List.mem_toFinset]
          exact ⟨findIssue_id_mem hfind, hpath⟩
        have := Finset.card_pos.mpr ⟨i, hin⟩
        omega
  | succ m ih =>
    intro path i hcard htrue
    by_cases hpath : i ∈ path
    · rw [rootedAux, dif_pos hpath] at htrue
      exact absurd htrue Bool.false_ne_true
    · cases hfind : findIssue issues i with
      | none =>
        rw [rootedAux_of_none hfind] at htrue
        exact absurd htrue Bool.false_ne_true
      | some iss =>
        rw [rootedAux_step hpath hfind] at htrue
        obtain ⟨hmem, hid⟩ := findIssue_mem hfind
        cases hpar : iss.parent_id with
        | none => exact Rooted.root iss i hmem hid hpar
        | some p =>
          rw [hpar] at htrue
          have hcard2 : (avail issues (i :: path)).card ≤ m := by
            have := avail_lt issues path i (findIssue_id_mem hfind) hpath
            omega
          exact Rooted.child iss i p hmem hid hpar (ih (i :: path) p hcard2 htrue)

/-- Completeness of the ascent: a `Rooted` id is reported as rooted whenever
the current path avoids it and all its ancestors. -/
lemma rootedAux_of_rooted {issues : List Issue} (hN : (idsOf issues).Nodup)
    {i : Nat} (h : Rooted issues i) :
    ∀ path, (∀ j, (j = i ∨ Anc issues i j) → j ∉ path) →
      rootedAux issues path i = true := by
  induction h with
  | root iss i hmem hid hpar =>
    intro path hdisj
    have hpath : i ∉ path := hdisj i (Or.inl rfl)
    have hfind : findIssue issues i = some iss := hid ▸ findIssue_of_mem hN hmem
    rw [rootedAux_step hpath hfind, hpar]
  | child iss i p hmem hid hpar hp ih =>
    intro path hdisj
    have hpath : i ∉ path := hdisj i (Or.inl rfl)
    have hfind : findIssue issues i = some iss := hid ▸ findIssue_of_mem hN hmem
    rw [rootedAux_step hpath hfind, hpar]
    apply ih
    intro j hj hjmem
    have hanc_ij : Anc issues i j := by
      cases hj with
      | inl hjp => exact hjp ▸ Anc.one iss i p hmem hid hpar
      | inr hpj => exact Anc.more iss i p j hmem hid hpar hpj
    cases List.mem_cons.mp hjmem with
    | inl hji =>
      exact rooted_not_anc_self hN (Rooted.child iss i p hmem hid hpar hp)
        (hji ▸ hanc_ij)
    | inr hjpath => exact hdisj j (Or.inr hanc_ij) hjpath

/-- The estimates mapping has an entry exactly for the `Rooted` ids. -/
lemma effMap_isSome_iff {issues : List Issue} (hN : (idsOf issues).Nodup) (i : Nat) :
    (effMap issues i).isSome = true ↔ Rooted issues i := by
  constructor
  · intro hs
    by_cases h : rootedAux issues [] i = true
    · exact rooted_of_rootedAux (avail issues []).card [] i le_rfl h
    · exfalso
      rw [effMap, if_neg h] at hs
      exact Bool.false_ne_true hs
  · intro hr
    have h := rootedAux_of_rooted hN hr [] (by simp)
    rw [effMap, if_pos h]
    rfl

lemma effMap_rooted {issues : List Issue} (hN : (idsOf issues).Nodup)
    {i : Nat} (hR : Rooted issues i) :
    effMap issues i = some (calcEffAux issues [] i) := by
  rw [effMap, if_pos (rootedAux_of_rooted hN hR [] (by simp))]

lemma effMap_not_rooted {issues : List Issue} {i : Nat}
    (h : ¬ Rooted issues i) : effMap issues i = none := by
  rw [effMap]
  by_cases hb : rootedAux issues [] i = true
  · exact absurd (rooted_of_rootedAux (avail issues []).card [] i le_rfl hb) h
  · rw [if_neg hb]

/-- For a rooted non-leaf, full leaf coverage of the subtree is exactly full
leaf coverage of every child subtree. -/
lemma leafCovered_parent {issues : List Issue} (hN : (idsOf issues).Nodup)
    {i : Nat} (hR : Rooted issues i) (hne : childrenOf issues i ≠ []) :
    LeafCovered issues i ↔ ∀ c ∈ childrenOf issues i, LeafCovered issues c.id := by
  constructor
  · intro hcov c hc iss2 hmem2 hsub hleaf
    exact hcov iss2 hmem2 (child_subtree hN hR hc _ hsub).1 hleaf
  · intro hall iss2 hmem2 hsub hleaf
    cases hsub with
    | inl hji =>
      exfalso
      rw [hji] at hleaf
      exact hne hleaf
    | inr hanc =>
      obtain ⟨c, hcmem, hcpar, hrest⟩ := anc_decomp hanc
      have hc : c ∈ childrenOf issues i := mem_childrenOf.mpr ⟨hcmem, hcpar⟩
      refine hall c hc iss2 hmem2 ?_ hleaf
      cases hrest with
      | inl hcid => exact Or.inl hcid.symm
      | inr h => exact Or.inr h

/-- `_has_all_leaf_estimates` decides exactly the spec-side `LeafCovered`
predicate on rooted subtrees disjoint from the recursion path. -/
lemma hasAllLeaf_iff {issues : List Issue} (hN : (idsOf issues).Nodup) :
    ∀ n path i, (avail issues path).card ≤ n → Rooted issues i →
      (∀ j, InSubtree issues i j → j ∉ path) →
      (hasAllLeafEstimatesAux issues path i = true ↔ LeafCovered issues i) := by
  intro n
  induction n with
  | zero =>
    intro path i hcard hR hdisj
    exfalso
    obtain ⟨iss, hmem, hid⟩ := rooted_exists hR
    have hin : i ∈ avail issues path := by
      simp only [avail, Finset.mem_sdiff, List.mem_toFinset]
      exact ⟨hid ▸ List.mem_map_of_mem Issue.id hmem, hdisj i (Or.inl rfl)⟩
    have := Finset.card_pos.mpr ⟨i, hin⟩
    omega
  | succ m ih =>
    intro path i hcard hR hdisj
    obtain ⟨iss, hmem, hid⟩ := rooted_exists hR
    have hfind : findIssue issues i = some iss := hid ▸ findIssue_of_mem hN hmem
    have hpath : i ∉ path := hdisj i (Or.inl rfl)
    rw [hasAllLeaf_step hpath hfind]
    by_cases hemp : (childrenOf issues i).isEmpty
    · rw [if_pos hemp]
      have hnil : childrenOf issues i = [] := List.isEmpty_iff.mp hemp
      constructor
      · intro hsome iss2 hmem2 hsub hleaf2
        cases hsub with
        | inl hji =>
          have heq : iss2 = iss := id_unique hN hmem2 hmem (hji.trans hid.symm)
          rw [heq]
          intro hnone
          rw [hnone] at hsome
          exact Bool.false_ne_true hsome
        | inr hanc =>
          exfalso
          obtain ⟨c, hcmem, hcpar⟩ := anc_exists_child hanc
          have hcmem2 : c ∈ childrenOf issues i := mem_childrenOf.mpr ⟨hcmem, hcpar⟩
          rw [hnil] at hcmem2
          exact List.not_mem_nil c hcmem2
      · intro hcov
        have hne := hcov iss hmem (Or.inl hid) (by rw [hid]; exact hnil)
        cases hest : iss.estimated_hours with
        | none => exact absurd hest hne
        | some q => rfl
    · rw [if_neg hemp]
      have hnilne : childrenOf issues i ≠ [] := by
        intro hh
        exact hemp (List.isEmpty_iff.mpr hh)
      have hstep : ∀ c ∈ childrenOf issues i,
          (hasAllLeafEstimatesAux issues (i :: path) c.id = true ↔
            LeafCovered issues c.id) := by
        intro c hc
        apply ih
        · have hlt := avail_lt issues path i (findIssue_id_mem hfind) hpath
          omega
        · exact rooted_of_child hc hR
        · intro j hj hjmem
          obtain ⟨hsub_i, hne⟩ := child_subtree hN hR hc j hj
          cases List.mem_cons.mp hjmem with
          | inl h => exact hne h
          | inr h => exact hdisj j hsub_i h
      rw [List.all_eq_true, leafCovered_parent hN hR hnilne]
      constructor
      · intro hall c hc
        exact (hstep c hc).mp (hall c hc)
      · intro hall c hc
        exact (hstep c hc).mpr (hall c hc)

/-- The value of the effort resolver does not depend on the recursion path,
as long as the path stays outside the (rooted) subtree being resolved. -/
lemma calcEff_path_irrel {issues : List Issue} (hN : (idsOf issues).Nodup) :
    ∀ n path1 path2 i, (avail issues path1).card ≤ n → Rooted issues i →
      (∀ j, InSubtree issues i j → j ∉ path1 ∧ j ∉ path2) →
      calcEffAux issues path1 i = calcEffAux issues path2 i := by
  intro n
  induction n with
  | zero =>
    intro path1 path2 i hcard hR hdisj
    exfalso
    obtain ⟨iss, hmem, hid⟩ := rooted_exists hR
    have hin : i ∈ avail issues path1 := by
      simp only [avail, Finset.mem_sdiff, List.mem_toFinset]
      exact ⟨hid ▸ List.mem_map_of_mem Issue.id hmem, (hdisj i (Or.inl rfl)).1⟩
    have := Finset.card_pos.mpr ⟨i, hin⟩
    omega
  | succ m ih =>
    intro path1 path2 i hcard hR hdisj
    obtain ⟨iss, hmem, hid⟩ := rooted_exists hR
    have hfind : findIssue issues i = some iss := hid ▸ findIssue_of_mem hN hmem
    have hp1 : i ∉ path1 := (hdisj i (Or.inl rfl)).1
    have hp2 : i ∉ path2 := (hdisj i (Or.inl rfl)).2
    rw [calcEff_step hp1 hfind, calcEff_step hp2 hfind]
    by_cases hemp : (childrenOf issues i).isEmpty
    · rw [if_pos hemp, if_pos hemp]
    · rw [if_neg hemp, if_neg hemp]
      by_cases hcovb : (childrenOf issues i).all
          (fun c => hasAllLeafEstimatesAux issues [] c.id) = true
      · rw [if_pos hcovb, if_pos hcovb]
        apply congrArg List.sum
        apply List.map_congr_left
        intro c hc
        apply ih
        · have hlt := avail_lt issues path1 i (findIssue_id_mem hfind) hp1
          omega
        · exact rooted_of_child hc hR
        · intro j hj
          obtain ⟨hsub, hne⟩ := child_subtree hN hR hc j hj
          obtain ⟨hj1, hj2⟩ := hdisj j hsub
          constructor
          · intro hmem1
            cases List.mem_cons.mp hmem1 with
            | inl h => exact hne h
            | inr h => exact hj1 h
          · intro hmem2
            cases List.mem_cons.mp hmem2 with
            | inl h => exact hne h
            | inr h => exact hj2 h
      · rw [if_neg hcovb, if_neg hcovb]

/-- Leaf rule of the resolver, on the mapping value. -/
lemma calcEff_leaf {issues : List Issue} {i : Nat} {iss : Issue}
    (hfind : findIssue issues i = some iss) (hnil : childrenOf issues i = []) :
    calcEffAux issues [] i = rawOr0 iss := by
  rw [calcEff_step (List.not_mem_nil i) hfind,
    if_pos (List.isEmpty_iff.mpr hnil)]

/-- Summation rule of the resolver: full leaf coverage of a rooted non-leaf
makes its value the sum of its children's values. -/
lemma calcEff_parent_cov {issues : List Issue} (hN : (idsOf issues).Nodup)
    {i : Nat} (hR : Rooted issues i) {iss : Issue}
    (hfind : findIssue issues i = some iss) (hne : childrenOf issues i ≠ [])
    (hcov : LeafCovered issues i) :
    calcEffAux issues [] i =
      ((childrenOf issues i).map (fun c => calcEffAux issues [] c.id)).sum := by
  rw [calcEff_step (List.not_mem_nil i) hfind,
    if_neg (fun hh => hne (List.isEmpty_iff.mp hh))]
  have hcovb : (childrenOf issues i).all
      (fun c => hasAllLeafEstimatesAux issues [] c.id) = true := by
    rw [List.all_eq_true]
    intro c hc
    exact (hasAllLeaf_iff hN (avail issues []).card [] c.id le_rfl
        (rooted_of_child hc hR) (by simp)).mpr
      ((leafCovered_parent hN hR hne).mp hcov c hc)
  rw [if_pos hcovb]
  apply congrArg List.sum
  apply List.map_congr_left
  intro c hc
  apply calcEff_path_irrel hN (avail issues [i]).card [i] [] c.id le_rfl
    (rooted_of_child hc hR)
  intro j hj
  obtain ⟨_, hne2⟩ := child_subtree hN hR hc j hj
  constructor
  · intro hmem1
    cases List.mem_cons.mp hmem1 with
    | inl h => exact hne2 h
    | inr h => exact List.not_mem_nil j h
  · exact List.not_mem_nil j

/-- Fallback rule of the resolver: a rooted non-leaf without full leaf
coverage keeps its own raw estimate (or 0). -/
lemma calcEff_parent_fallback {issues : List Issue} (hN : (idsOf issues).Nodup)
    {i : Nat} (hR : Rooted issues i) {iss : Issue}
    (hfind : findIssue issues i = some iss) (hne : childrenOf issues i ≠ [])
    (hncov : ¬ LeafCovered issues i) :
    calcEffAux issues [] i = rawOr0 iss := by
  rw [calcEff_step (List.not_mem_nil i) hfind,
    if_neg (fun hh => hne (List.isEmpty_iff.mp hh))]
  have hcovb : ¬ ((childrenOf issues i).all
      (fun c => hasAllLeafEstimatesAux issues [] c.id) = true) := by
    intro hall
    apply hncov
    rw [leafCovered_parent hN hR hne]
    intro c hc
    exact (hasAllLeaf_iff hN (avail issues []).card [] c.id le_rfl
        (rooted_of_child hc hR) (by simp)).mp (List.all_eq_true.mp hall c hc)
  rw [if_neg hcovb]

/-- The exact condition under which `_handle_parent_estimate` appends a
warning for issue `i`: the fallback branch is taken (non-leaf without full
leaf coverage) and both the issue's own `estimated_hours` and some direct
child's `estimated_hours` are truthy in the Python sense. -/
def warnCondB (issues : List Issue) (i : Nat) : Bool :=
  match findIssue issues i with
  | none => false
  | some iss =>
    let children := childrenOf issues i
    !children.isEmpty &&
      !(children.all (fun c => hasAllLeafEstimatesAux issues [] c.id)) &&
      (pyTruthy iss.estimated_hours && children.any (fun c => pyTruthy c.estimated_hours))

lemma warn_subset {issues : List Issue} :
    ∀ n path r, (avail issues path).card ≤ n →
      ∀ x ∈ warnAux issues path r, InSubtree issues r x := by
  intro n
  induction n with
  | zero =>
    intro path r hcard x hx
    exfalso
    by_cases hpath : r ∈ path
    · rw [warnAux, dif_pos hpath] at hx
      exact List.not_mem_nil x hx
    · cases hfind : findIssue issues r with
      | none =>
        rw [warnAux, dif_neg hpath, dif_pos (findIssue_none_iff.mp hfind)] at hx
        exact List.not_mem_nil x hx
      | some iss =>
        have hin : r ∈ avail issues path := by
          simp only [avail, Finset.mem_sdiff, List.mem_toFinset]
          exact ⟨findIssue_id_mem hfind, hpath⟩
        have := Finset.card_pos.mpr ⟨r, hin⟩
        omega
  | succ m ih =>
    intro path r hcard x hx
    by_cases hpath : r ∈ path
    · rw [warnAux, dif_pos hpath] at hx
      exact absurd hx (List.not_mem_nil x)
    · cases hfind : findIssue issues r with
      | none =>
        rw [warnAux, dif_neg hpath, dif_pos (findIssue_none_iff.mp hfind)] at hx
        exact absurd hx (List.not_mem_nil x)
      | some iss =>
        rw [warn_step hpath hfind] at hx
        by_cases hemp : (childrenOf issues r).isEmpty
        · rw [if_pos hemp] at hx
          exact absurd hx (List.not_mem_nil x)
        · rw [if_neg hemp] at hx
          rcases List.mem_append.mp hx with hx1 | hx2
          · obtain ⟨l, hl, hxl⟩ := List.mem_flatten.mp hx1
            obtain ⟨c, hc, hcl⟩ := List.mem_map.mp hl
            rw [← hcl] at hxl
            have hcard2 : (avail issues (r :: path)).card ≤ m := by
              have := avail_lt issues path r (findIssue_id_mem hfind) hpath
              omega
            have hsubc := ih (r :: path) c.id hcard2 x hxl
            obtain ⟨hcmem, hcpar⟩ := mem_childrenOf.mp hc
            have hanc_cr : Anc issues c.id r := Anc.one c c.id r hcmem rfl hcpar
            cases hsubc with
            | inl hxc => exact Or.inr (hxc ▸ hanc_cr)
            | inr hanc => exact Or.inr (anc_trans hanc hanc_cr)
          · by_cases hcovb : (childrenOf issues r).all
                (fun c => hasAllLeafEstimatesAux issues [] c.id) = true
            · rw [if_pos hcovb] at hx2
              exact absurd hx2 (List.not_mem_nil x)
            · rw [if_neg hcovb] at hx2
              by_cases htr : (pyTruthy iss.estimated_hours
                  && (childrenOf issues r).any (fun c => pyTruthy c.estimated_hours)) = true
              · rw [if_pos htr] at hx2
                rcases List.mem_singleton.mp hx2 with hxr
                exact Or.inl hxr
              · rw [if_neg htr] at hx2
                exact absurd hx2 (List.not_mem_nil x)

/-- No ancestor chain can run from one child of a rooted node to (the id of)
another child of the same node. -/
lemma no_anc_between_children {issues : List Issue} (hN : (idsOf issues).Nodup)
    {r : Nat} (hR : Rooted issues r) {c1 c2 : Issue}
    (hc1 : c1 ∈ childrenOf issues r) (hc2 : c2 ∈ childrenOf issues r)
    (h : Anc issues c1.id c2.id) : False := by
  obtain ⟨hm1, hp1⟩ := mem_childrenOf.mp hc1
  obtain ⟨hm2, hp2⟩ := mem_childrenOf.mp hc2
  have hanc2 : Anc issues c2.id r := Anc.one c2 c2.id r hm2 rfl hp2
  obtain ⟨iss2, hmem2, hid2, hrest⟩ := anc_cases h
  have heq : iss2 = c1 := id_unique hN hmem2 hm1 hid2
  rw [heq] at hrest
  rcases hrest with hpar2 | ⟨q, hpar2, hq⟩
  · rw [hp1] at hpar2
    have : r = c2.id := Option.some.inj hpar2
    rw [← this] at hanc2
    exact rooted_not_anc_self hN hR hanc2
  · rw [hp1] at hpar2
    have hqr : r = q := Option.some.inj hpar2
    rw [← hqr] at hq
    exact rooted_not_anc_self hN hR (anc_trans hq hanc2)

/-- Two children of a rooted node whose subtrees share an id coincide. -/
lemma sibling_subtree_unique {issues : List Issue} (hN : (idsOf issues).Nodup)
    {r : Nat} (hR : Rooted issues r) {c1 c2 : Issue}
    (hc1 : c1 ∈ childrenOf issues r) (hc2 : c2 ∈ childrenOf issues r)
    {i : Nat} (h1 : InSubtree issues c1.id i) (h2 : InSubtree issues c2.id i) :
    c1 = c2 := by
  obtain ⟨hm1, _⟩ := mem_childrenOf.mp hc1
  obtain ⟨hm2, _⟩ := mem_childrenOf.mp hc2
  cases h1 with
  | inl he1 =>
    cases h2 with
    | inl he2 => exact id_unique hN hm1 hm2 (he1 ▸ he2 ▸ rfl)
    | inr ha2 =>
      exact absurd (he1 ▸ ha2) (fun hh => no_anc_between_children hN hR hc1 hc2 hh)
  | inr ha1 =>
    cases h2 with
    | inl he2 =>
      exact absurd (he2 ▸ ha1) (fun hh => no_anc_between_children hN hR hc2 hc1 hh)
    | inr ha2 =>
      rcases anc_comparable hN ha1 ha2 with heq | h12 | h21
      · exact id_unique hN hm1 hm2 heq
      · exact absurd h12 (fun hh => no_anc_between_children hN hR hc1 hc2 hh)
      · exact absurd h21 (fun hh => no_anc_between_children hN hR hc2 hc1 hh)

lemma sum_map_single {α : Type} [DecidableEq α] :
    ∀ (l : List α), l.Nodup → ∀ (f : α → Nat) (c : α), c ∈ l →
      (∀ x ∈ l, x ≠ c → f x = 0) → (l.map f).sum = f c := by
  intro l
  induction l with
  | nil =>
    intro _ f c hc _
    exact absurd hc (List.not_mem_nil c)
  | cons a l ih =>
    intro hnd f c hc hz
    rcases List.mem_cons.mp hc with hac | hcl
    · subst hac
      have hz2 : ∀ x ∈ l, f x = 0 := by
        intro x hx
        have hne : x ≠ c := by
          intro hxa
          subst hxa
          exact (List.nodup_cons.mp hnd).1 hx
        exact hz x (List.mem_cons_of_mem c hx) hne
      simp only [List.map_cons, List.sum_cons]
      rw [List.sum_eq_zero (by
        intro y hy
        obtain ⟨x, hx, hxy⟩ := List.mem_map.mp hy
        rw [← hxy]
        exact hz2 x hx)]
      omega
    · have hac : a ≠ c := by
        intro haa
        subst haa
        exact (List.nodup_cons.mp hnd).1 hcl
      simp only [List.map_cons, List.sum_cons]
      rw [hz a (List.mem_cons_self a l) hac,
        ih (List.nodup_cons.mp hnd).2 f c hcl
          (fun x hx hxc => hz x (List.mem_cons_of_mem a hx) hxc)]
      omega

lemma childrenOf_nodup {issues : List Issue} (hN : (idsOf issues).Nodup)
    (i : Nat) : (childrenOf issues i).Nodup :=
  (hN.of_map Issue.id).filter _

lemma warnCondB_eq {issues : List Issue} {r : Nat} {iss : Issue}
    (hfind : findIssue issues r = some iss) :
    warnCondB issues r =
      (!(childrenOf issues r).isEmpty &&
        !((childrenOf issues r).all (fun c => hasAllLeafEstimatesAux issues [] c.id)) &&
        (pyTruthy iss.estimated_hours &&
          (childrenOf issues r).any (fun c => pyTruthy c.estimated_hours))) := by
  unfold warnCondB
  rw [hfind]

/-- Count of the warnings produced while resolving a rooted subtree: inside
the subtree each id is warned about exactly when `warnCondB` holds of it,
and ids outside the subtree are never mentioned. -/
lemma warn_count {issues : List Issue} (hN : (idsOf issues).Nodup) :
    ∀ n path r, (avail issues path).card ≤ n → Rooted issues r →
      (∀ j, InSubtree issues r j → j ∉ path) → ∀ i,
      (InSubtree issues r i →
        (warnAux issues path r).count i = (if warnCondB issues i then 1 else 0))
      ∧ (¬ InSubtree issues r i → (warnAux issues path r).count i = 0) := by
  intro n
  induction n with
  | zero =>
    intro path r hcard hR hdisj i
    exfalso
    obtain ⟨iss, hmem, hid⟩ := rooted_exists hR
    have hin : r ∈ avail issues path := by
      simp only [avail, Finset.mem_sdiff, List.mem_toFinset]
      exact ⟨hid ▸ List.mem_map_of_mem Issue.id hmem, hdisj r (Or.inl rfl)⟩
    have := Finset.card_pos.mpr ⟨r, hin⟩
    omega
  | succ m ih =>
    intro path r hcard hR hdisj i
    obtain ⟨iss, hmem, hid⟩ := rooted_exists hR
    have hfind : findIssue issues r = some iss := hid ▸ findIssue_of_mem hN hmem
    have hpath : r ∉ path := hdisj r (Or.inl rfl)
    have hcard2 : (avail issues (r :: path)).card ≤ m := by
      have := avail_lt issues path r (findIssue_id_mem hfind) hpath
      omega
    rw [warn_step hpath hfind]
    by_cases hemp : (childrenOf issues r).isEmpty
    · rw [if_pos hemp]
      constructor
      · intro hsub
        have hir : i = r := by
          cases hsub with
          | inl h => exact h
          | inr hanc =>
            exfalso
            obtain ⟨c, hcmem, hcpar⟩ := anc_exists_child hanc
            have : c ∈ childrenOf issues r := mem_childrenOf.mpr ⟨hcmem, hcpar⟩
            rw [List.isEmpty_iff.mp hemp] at this
            exact List.not_mem_nil c this
        subst hir
        rw [warnCondB_eq hfind, hemp]
        rfl
      · intro _
        rfl
    · rw [if_neg hemp]
      have hchild : ∀ c ∈ childrenOf issues r,
          (InSubtree issues c.id i →
            (warnAux issues (r :: path) c.id).count i =
              (if warnCondB issues i then 1 else 0))
          ∧ (¬ InSubtree issues c.id i →
            (warnAux issues (r :: path) c.id).count i = 0) := by
        intro c hc
        apply ih (r :: path) c.id hcard2 (rooted_of_child hc hR)
        intro j hj hjmem
        obtain ⟨hsub_r, hne⟩ := child_subtree hN hR hc j hj
        cases List.mem_cons.mp hjmem with
        | inl h => exact hne h
        | inr h => exact hdisj j hsub_r h
      have hflat : (((childrenOf issues r).map
            (fun c => warnAux issues (r :: path) c.id)).flatten).count i =
          ((childrenOf issues r).map
            (fun c => (warnAux issues (r :: path) c.id).count i)).sum := by
        rw [List.count_flatten, List.map_map]
        rfl
      rw [List.count_append, hflat]
      constructor
      · intro hsub
        by_cases hir : i = r
        · subst hir
          have hzero : ((childrenOf issues i).map
              (fun c => (warnAux issues (i :: path) c.id).count i)).sum = 0 := by
            apply List.sum_eq_zero
            intro y hy
            obtain ⟨c, hc, hcy⟩ := List.mem_map.mp hy
            rw [← hcy]
            apply (hchild c hc).2
            intro hsubc
            exact (child_subtree hN hR hc i hsubc).2 rfl
          rw [hzero, warnCondB_eq hfind]
          have hnotEmp : (childrenOf issues i).isEmpty = false :=
            Bool.not_eq_true _ ▸ (by simpa using hemp)
          by_cases hcovb : (childrenOf issues i).all
              (fun c => hasAllLeafEstimatesAux issues [] c.id) = true
          · rw [if_pos hcovb, hcovb, hnotEmp]
            rfl
          · rw [if_neg hcovb]
            have hcovb2 : (childrenOf issues i).all
                (fun c => hasAllLeafEstimatesAux issues [] c.id) = false :=
              Bool.not_eq_true _ ▸ (by simpa using hcovb)
            rw [hcovb2, hnotEmp]
            by_cases htr : (pyTruthy iss.estimated_hours
                && (childrenOf issues i).any (fun c => pyTruthy c.estimated_hours)) = true
            · rw [if_pos htr, htr]
              simp
            · have htr2 : (pyTruthy iss.estimated_hours
                  && (childrenOf issues i).any (fun c => pyTruthy c.estimated_hours)) = false :=
                Bool.not_eq_true _ ▸ (by simpa using htr)
              rw [if_neg htr, htr2]
              rfl
        · have hanc : Anc issues i r := by
            cases hsub with
            | inl h => exact absurd h hir
            | inr h => exact h
          obtain ⟨c0, hc0mem, hc0par, hrest⟩ := anc_decomp hanc
          have hc0 : c0 ∈ childrenOf issues r := mem_childrenOf.mpr ⟨hc0mem, hc0par⟩
          have hsubc0 : InSubtree issues c0.id i := by
            cases hrest with
            | inl h => exact Or.inl h.symm
            | inr h => exact Or.inr h
          have hsum : ((childrenOf issues r).map
              (fun c => (warnAux issues (r :: path) c.id).count i)).sum =
              (warnAux issues (r :: path) c0.id).count i := by
            apply sum_map_single (childrenOf issues r) (childrenOf_nodup hN r) _ c0 hc0
            intro c hc hcne
            apply (hchild c hc).2
            intro hsubc
            exact hcne (sibling_subtree_unique hN hR hc hc0 hsubc hsubc0)
          rw [hsum, (hchild c0 hc0).1 hsubc0]
          have htail : ((if (childrenOf issues r).all
                (fun c => hasAllLeafEstimatesAux issues [] c.id) then ([] : List Nat)
              else if pyTruthy iss.estimated_hours
                  && (childrenOf issues r).any (fun c => pyTruthy c.estimated_hours) then [r]
              else []).count i) = 0 := by
            by_cases hcovb : (childrenOf issues r).all
                (fun c => hasAllLeafEstimatesAux issues [] c.id) = true
            · rw [if_pos hcovb]
              rfl
            · rw [if_neg hcovb]
              by_cases htr : (pyTruthy iss.estimated_hours
                  && (childrenOf issues r).any (fun c => pyTruthy c.estimated_hours)) = true
              · rw [if_pos htr]
                rw [List.count_cons_of_ne hir]
                rfl
              · rw [if_neg htr]
                rfl
          rw [htail]
          omega
      · intro hnsub
        have hir : i ≠ r := fun h => hnsub (Or.inl h)
        have hzero : ((childrenOf issues r).map
            (fun c => (warnAux issues (r :: path) c.id).count i)).sum = 0 := by
          apply List.sum_eq_zero
          intro y hy
          obtain ⟨c, hc, hcy⟩ := List.mem_map.mp hy
          rw [← hcy]
          apply (hchild c hc).2
          intro hsubc
          exact hnsub (child_subtree hN hR hc i hsubc).1
        rw [hzero]
        by_cases hcovb : (childrenOf issues r).all
            (fun c => hasAllLeafEstimatesAux issues [] c.id) = true
        · rw [if_pos hcovb]
          rfl
        · rw [if_neg hcovb]
          by_cases htr : (pyTruthy iss.estimated_hours
              && (childrenOf issues r).any (fun c => pyTruthy c.estimated_hours)) = true
          · rw [if_pos htr]
            rw [List.count_cons_of_ne hir]
            rfl
          · rw [if_neg htr]
            rfl

lemma rootsOf_nodup {issues : List Issue} (hN : (idsOf issues).Nodup) :
    (rootsOf issues).Nodup :=
  (hN.of_map Issue.id).filter _

/-- Global warning count: over the whole resolver run, an id reachable from
a root is warned about exactly once when `warnCondB` holds of it, and never
otherwise. -/
lemma resolverWarnings_count {issues : List Issue} (hN : (idsOf issues).Nodup)
    {i : Nat} (hR : Rooted issues i) :
    (resolverWarnings issues).count i = if warnCondB issues i then 1 else 0 := by
  obtain ⟨r0, hr0, hsub0⟩ := rooted_root_exists hR
  unfold resolverWarnings
  rw [List.count_flatten, List.map_map]
  have hrooted : ∀ r ∈ rootsOf issues, Rooted issues r.id := by
    intro r hr
    obtain ⟨hm, hp⟩ := mem_rootsOf.mp hr
    exact Rooted.root r r.id hm rfl hp
  have hz : ∀ r ∈ rootsOf issues, r ≠ r0 →
      (List.count i ∘ fun r => warnAux issues [] r.id) r = 0 := by
    intro r hr hrne
    apply (warn_count hN (avail issues []).card [] r.id le_rfl (hrooted r hr)
      (by simp) i).2
    intro hsub
    exact hrne (subtree_root_unique hN hr hr0 hsub hsub0)
  rw [sum_map_single (rootsOf issues) (rootsOf_nodup hN) _ r0 hr0 hz]
  exact (warn_count hN (avail issues []).card [] r0.id le_rfl (hrooted r0 hr0)
    (by simp) i).1 hsub0

/-- All resolver values are non-negative when every raw estimate is. -/
lemma calcEff_nonneg {issues : List Issue}
    (hraw : ∀ iss ∈ issues, ∀ q, iss.estimated_hours = some q → 0 ≤ q) :
    ∀ n path i, (avail issues path).card ≤ n → 0 ≤ calcEffAux issues path i := by
  intro n
  induction n with
  | zero =>
    intro path i hcard
    by_cases hpath : i ∈ path
    · rw [calcEffAux, dif_pos hpath]
    · cases hfind : findIssue issues i with
      | none => rw [calcEffAux, dif_neg hpath, dif_pos (findIssue_none_iff.mp hfind)]
      | some iss =>
        exfalso
        have hin : i ∈ avail issues path := by
          simp only [avail, Finset.mem_sdiff, List.mem_toFinset]
          exact ⟨findIssue_id_mem hfind, hpath⟩
        have := Finset.card_pos.mpr ⟨i, hin⟩
        omega
  | succ m ih =>
    intro path i hcard
    by_cases hpath : i ∈ path
    · rw [calcEffAux, dif_pos hpath]
    · cases hfind : findIssue issues i with
      | none => rw [calcEffAux, dif_neg hpath, dif_pos (findIssue_none_iff.mp hfind)]
      | some iss =>
        rw [calcEff_step hpath hfind]
        have hraw0 : 0 ≤ rawOr0 iss := by
          cases hq : iss.estimated_hours with
          | none => simp [rawOr0, hq]
          | some q => simpa [rawOr0, hq] using hraw iss (findIssue_mem hfind).1 q hq
        by_cases hemp : (childrenOf issues i).isEmpty
        · rw [if_pos hemp]
          exact hraw0
        · rw [if_neg hemp]
          by_cases hcovb : (childrenOf issues i).all
              (fun c => hasAllLeafEstimatesAux issues [] c.id) = true
          · rw [if_pos hcovb]
            apply List.sum_nonneg
            intro y hy
            obtain ⟨c, hc, hcy⟩ := List.mem_map.mp hy
            rw [← hcy]
            apply ih
            have := avail_lt issues path i (findIssue_id_mem hfind) hpath
            omega
          · rw [if_neg hcovb]
            exact hraw0

lemma estOf_nonneg {issues : List Issue}
    (hraw : ∀ iss ∈ issues, ∀ q, iss.estimated_hours = some q → 0 ≤ q)
    (i : Nat) : 0 ≤ estOf issues i := by
  unfold estOf effMap
  by_cases h : rootedAux issues [] i = true
  · rw [if_pos h]
    exact calcEff_nonneg hraw (avail issues []).card [] i le_rfl
  · rw [if_neg h]
    exact le_refl 0

/-- One row of the `snapshots` table, as built by
`_calculate_snapshot_metrics` (velocities are the placeholder zeros of
`_calculate_velocities`). -/
structure Snapshot where
  date : Nat
  target_type : String
  target_id : Nat
  scope_hours : ℚ
  remaining_hours : ℚ
  completed_hours : ℚ
  ideal_remaining_hours : ℚ
  v_avg : ℚ
  v_max : ℚ
  v_min : ℚ
deriving DecidableEq, Repr

/-- One row of the `assignee_snapshots` table. -/
structure AssigneeSnapshot where
  date : Nat
  target_type : String
  target_id : Nat
  assigned_to_id : Option Nat
  assigned_to_name : Option String
  scope_hours : ℚ
  remaining_hours : ℚ
  completed_hours : ℚ
deriving DecidableEq, Repr

/-- `scope_hours` of `_calculate_snapshot_metrics`: the estimates of the
`parent_id IS NULL` issues, summed. `est` is `issue_estimates.get(id, 0.0)`. -/
def scopeHours (issues : List Issue) (est : Nat → ℚ) : ℚ :=
  ((rootsOf issues).map (fun iss => est iss.id)).sum

/-- `remaining_hours` of `_calculate_snapshot_metrics`: same sum, restricted
to root issues whose `status_name` is not a done status. -/
def remainingHours (issues : List Issue) (est : Nat → ℚ) (done : List String) : ℚ :=
  (((rootsOf issues).filter (fun iss => decide (iss.status_name ∉ done))).map
    (fun iss => est iss.id)).sum

/-- Per-assignee scope: the `scope_hours` accumulator of
`_calculate_assignee_snapshots` for key `a` (`none` = unassigned). -/
def assigneeScope (issues : List Issue) (est : Nat → ℚ) (a : Option Nat) : ℚ :=
  (((rootsOf issues).filter (fun iss => decide (iss.assigned_to_id = a))).map
    (fun iss => est iss.id)).sum

/-- Per-assignee remaining hours accumulator. -/
def assigneeRemaining (issues : List Issue) (est : Nat → ℚ) (done : List String)
    (a : Option Nat) : ℚ :=
  (((rootsOf issues).filter (fun iss =>
      decide (iss.assigned_to_id = a) && decide (iss.status_name ∉ done))).map
    (fun iss => est iss.id)).sum

/-- The distinct assignee keys of the root issues (the keys of the
`assignee_stats` dict). `dedup` keeps the last occurrence whereas the dict
iterates in first-insertion order; every property proved below is
insensitive to row order. -/
def assigneeKeys (issues : List Issue) : List (Option Nat) :=
  ((rootsOf issues).map Issue.assigned_to_id).dedup

/-- `assignee_names[assignee_id]`: the display name recorded when the key
was first inserted, i.e. the name on the first root issue with that key. -/
def firstAssigneeName (issues : List Issue) (a : Option Nat) : Option String :=
  ((rootsOf issues).find? (fun iss => decide (iss.assigned_to_id = a))).bind
    Issue.assigned_to_name

/-- `_calculate_assignee_snapshots`: one row per assignee key whose scope is
positive; `completed_hours` is derived as `scope - remaining`. -/
def assigneeSnapshots (issues : List Issue) (est : Nat → ℚ) (done : List String)
    (date : Nat) (ttype : String) (tid : Nat) : List AssigneeSnapshot :=
  (assigneeKeys issues).filterMap (fun a =>
    let s := assigneeScope issues est a
    let r := assigneeRemaining issues est done a
    if 0 < s then
      some { date := date, target_type := ttype, target_id := tid,
             assigned_to_id := a, assigned_to_name := firstAssigneeName issues a,
             scope_hours := s, remaining_hours := r, completed_hours := s - r }
    else none)

/-- One row of the `versions` table (dates already parsed, see
`VersionInfo`). -/
structure VersionRec where
  id : Nat
  project_id : Nat
  name : String
  start_date : Option Nat
  due_date : Option Nat
deriving DecidableEq, Repr

/-- One row of the `releases` table. -/
structure ReleaseRec where
  id : Nat
  project_id : Nat
  due_date : String
  name : String
deriving DecidableEq, Repr

/-- The SQLite database as read and written by the snapshot service. -/
structure Store where
  versions : List VersionRec
  releases : List ReleaseRec
  issues : List Issue
  snapshots : List Snapshot
  assignee_snapshots : List AssigneeSnapshot
  meta : List (String × String)
deriving Repr

/-- `_get_version_id`: `SELECT id FROM versions WHERE name = ?`. -/
def getVersionId (st : Store) (name : String) : Option Nat :=
  (st.versions.find? (fun v => decide (v.name = name))).map VersionRec.id

/-- `_get_version_info`: the missing-row case yields the empty dict, whose
`.get` calls return `None` — modelled by the all-`none` record. -/
def getVersionInfo (st : Store) (vid : Nat) : VersionInfo :=
  match st.versions.find? (fun v => decide (v.id = vid)) with
  | some v => ⟨v.start_date, v.due_date⟩
  | none => ⟨none, none⟩

/-- Python `str.isdigit` (restricted to the ASCII digits that matter for
numeric ids): non-empty and all digits. -/
def isDigitString (s : String) : Bool :=
  s.length != 0 && s.data.all Char.isDigit

/-- `_get_project_id`: a digit string is parsed as the id itself; any other
identifier is ignored and the first `project_id` found in the issues table
is returned (`SELECT DISTINCT project_id FROM issues LIMIT 1`), or `None`
when the table is empty. -/
def getProjectId (st : Store) (ident : String) : Option Nat :=
  if isDigitString ident then ident.toNat?
  else (st.issues.map Issue.project_id).head?

/-- `ReleaseModel.get_release_by_criteria`. -/
def getReleaseByCriteria (st : Store) (pid : Nat) (due : String) (name : String) :
    Option ReleaseRec :=
  st.releases.find? (fun r =>
    decide (r.project_id = pid) && decide (r.due_date = due) && decide (r.name = name))

/-- `_prepare_version_mode`: raises when the named version is absent. -/
def prepareVersionMode (st : Store) (name : String) : Except String (Nat × String) :=
  match getVersionId st name with
  | some vid => .ok (vid, "version")
  | none => .error "version not found"

/-- `_prepare_release_mode`: default release name, project resolution, then
release lookup; each missing piece raises. -/
def prepareReleaseMode (st : Store) (projIdent : String) (releaseDue : String)
    (releaseName : Option String) : Except String (Nat × String) :=
  let finalName := releaseName.getD ("Release-" ++ releaseDue)
  match getProjectId st projIdent with
  | none => .error "project not found"
  | some pid =>
    match getReleaseByCriteria st pid releaseDue finalName with
    | some rel => .ok (rel.id, "release")
    | none => .error "release not found"

/-- `_determine_target` (the absent/present distinction of the optional
`version_name` / `release_due_date` arguments models their truthiness). -/
def determineTarget (st : Store) (projIdent : String)
    (versionName releaseDue releaseName : Option String) :
    Except String (Nat × String) :=
  match versionName with
  | some v => prepareVersionMode st v
  | none =>
    match releaseDue with
    | some dd => prepareReleaseMode st projIdent dd releaseName
    | none => .error "version_name or release_due_date is required"

/-- `IssueModel.get_issues_by_version` (the `ORDER BY id` of the query is
dropped: all facts proved below are row-order-insensitive). -/
def getIssuesByVersion (st : Store) (vid : Nat) : List Issue :=
  st.issues.filter (fun iss => decide (iss.version_id = some vid))

/-- `IssueModel.get_root_issues_by_due_date`: project match, `due_date <= ?`
(NULL compares false in SQL), `parent_id IS NULL`. -/
def getRootIssuesByDueDate (st : Store) (pid : Nat) (due : String) : List Issue :=
  st.issues.filter (fun iss =>
    decide (iss.project_id = pid) &&
      (match iss.due_date with
       | some dd => decide (dd ≤ due)
       | none => false) &&
      decide (iss.parent_id = none))

/-- `_get_target_issues` (including `_get_issues_at_date`, which currently
just forwards the version query, and `_get_issues_by_due_date`). -/
def getTargetIssues (st : Store) (tid : Nat) (ttype : String) (projIdent : String)
    (releaseDue : Option String) : Except String (List Issue) :=
  if ttype = "version" then .ok (getIssuesByVersion st tid)
  else
    match releaseDue with
    | none => .error "release_due_date is required for release mode"
    | some dd =>
      match getProjectId st projIdent with
      | none => .ok []
      | some pid => .ok (getRootIssuesByDueDate st pid dd)

/-- The issue rows `_calculate_snapshot_metrics` aggregates: re-fetched by
version for version mode; for release mode, the rows of the ids present in
the estimates mapping (each fetched back by id from the store). -/
def metricsIssues (st : Store) (ttype : String) (tid : Nat)
    (targetIssues : List Issue) : List Issue :=
  if ttype = "version" then getIssuesByVersion st tid
  else st.issues.filter (fun iss => (effMap targetIssues iss.id).isSome)

/-- `_calculate_snapshot_metrics` plus `_calculate_velocities` (placeholder
zeros) and `_calculate_ideal_remaining_by_due_date` (returns the scope
unchanged in release mode). -/
def calculateSnapshotMetrics (st : Store) (done : List String) (isHol : Nat → Bool)
    (ttype : String) (tid : Nat) (targetDate : Nat) (targetIssues : List Issue) :
    Snapshot :=
  let issues := metricsIssues st ttype tid targetIssues
  let est := fun i => estOf targetIssues i
  let scope := scopeHours issues est
  let remaining := remainingHours issues est done
  let ideal :=
    if ttype = "version" then
      calcIdealRemaining isHol (getVersionInfo st tid) targetDate scope
    else scope
  { date := targetDate, target_type := ttype, target_id := tid,
    scope_hours := scope, remaining_hours := remaining,
    completed_hours := scope - remaining, ideal_remaining_hours := ideal,
    v_avg := 0, v_max := 0, v_min := 0 }

/-- `SnapshotModel.save_snapshot`: `INSERT OR REPLACE` keyed by
(date, target_type, target_id). -/
def saveSnapshot (st : Store) (snap : Snapshot) : Store :=
  { st with snapshots :=
      snap :: st.snapshots.filter (fun s0 =>
        !(decide (s0.date = snap.date) && decide (s0.target_type = snap.target_type)
          && decide (s0.target_id = snap.target_id))) }

/-- `SnapshotModel.save_assignee_snapshot`: upsert keyed by
(date, target_type, target_id, assigned_to_id). -/
def saveAssigneeSnapshot (st : Store) (asnap : AssigneeSnapshot) : Store :=
  { st with assignee_snapshots :=
      asnap :: st.assignee_snapshots.filter (fun s0 =>
        !(decide (s0.date = asnap.date) && decide (s0.target_type = asnap.target_type)
          && decide (s0.target_id = asnap.target_id)
          && decide (s0.assigned_to_id = asnap.assigned_to_id))) }

/-- `INSERT OR REPLACE INTO meta`. -/
def setMeta (st : Store) (key value : String) : Store :=
  { st with meta := (key, value) :: st.meta.filter (fun kv => !(decide (kv.1 = key))) }

/-- `_update_metadata`: `initial_scope_{type}_{id}` only if absent,
`last_snapshot_{type}_{id}` always. -/
def updateMetadata (st : Store) (ttype : String) (tid : Nat) (targetDate : Nat)
    (scope : ℚ) : Store :=
  let initKey := "initial_scope_" ++ ttype ++ "_" ++ toString tid
  let st1 :=
    if (st.meta.find? (fun kv => decide (kv.1 = initKey))).isSome then st
    else setMeta st initKey (toString scope)
  setMeta st1 ("last_snapshot_" ++ ttype ++ "_" ++ toString tid) (toString targetDate)

/-- `SnapshotService.create_snapshot`, with the store threaded explicitly:
the second component is `some message` exactly when the source raises
`ValueError`, and the first component is the store as the run leaves it. -/
def createSnapshot (st : Store) (done : List String) (isHol : Nat → Bool)
    (projIdent : String) (versionName releaseDue releaseName : Option String)
    (targetDate : Nat) : Store × Option String :=
  match determineTarget st projIdent versionName releaseDue releaseName with
  | .error e => (st, some e)
  | .ok (tid, ttype) =>
    match getTargetIssues st tid ttype projIdent releaseDue with
    | .error e => (st, some e)
    | .ok targetIssues =>
      let snap := calculateSnapshotMetrics st done isHol ttype tid targetDate targetIssues
      let asnaps := assigneeSnapshots targetIssues (fun i => estOf targetIssues i) done
        targetDate ttype tid
      let st1 := saveSnapshot st snap
      let st2 := asnaps.foldl saveAssigneeSnapshot st1
      let st3 := updateMetadata st2 ttype tid targetDate snap.scope_hours
      (st3, none)

/-- Reference definition from the spec (§4.3) for the ideal line, written
with `elapsed = business_days(start, min(target_date, due))` as the spec
words it; the remaining-days clamp is the truncated subtraction. -/
def idealRemainingSpec (isHol : Nat → Bool) (s d target : Nat) (scope : ℚ) : ℚ :=
  let total := countBusinessDays isHol s d
  if total ≤ 0 then 0
  else
    let elapsed := countBusinessDays isHol s (min target d)
    max 0 (scope * ((total - elapsed : Nat) : ℚ) / (total : ℚ))

lemma countBD_filter (isHol : Nat → Bool) :
    ∀ n s e, e - s = n → countBusinessDays isHol s e =
      ((List.range' s n).filter
        (fun d => decide (pyWeekday d < 5) && !isHol d)).length := by
  intro n
  induction n with
  | zero =>
    intro s e h
    rw [countBusinessDays, if_pos (by omega)]
    rfl
  | succ m ihm =>
    intro s e h
    rw [countBusinessDays, if_neg (by omega), List.range'_succ, List.filter_cons]
    by_cases hc : (decide (pyWeekday s < 5) && !isHol s) = true
    · rw [if_pos hc, if_pos hc, List.length_cons, ihm (s + 1) e (by omega)]
      omega
    · rw [if_neg hc, if_neg hc, ihm (s + 1) e (by omega)]
      omega

/-- The loop counts exactly the non-weekend non-holiday days of `[s, e)`. -/
lemma countBD_eq_filter (isHol : Nat → Bool) (s e : Nat) :
    countBusinessDays isHol s e =
      ((List.range' s (e - s)).filter
        (fun d => decide (pyWeekday d < 5) && !isHol d)).length :=
  countBD_filter isHol (e - s) s e rfl

lemma countBD_zero_of_le (isHol : Nat → Bool) {s e : Nat} (h : e ≤ s) :
    countBusinessDays isHol s e = 0 := by
  rw [countBusinessDays, if_pos h]

lemma countBD_mono (isHol : Nat → Bool) (s : Nat) {e e2 : Nat} (h : e ≤ e2) :
    countBusinessDays isHol s e ≤ countBusinessDays isHol s e2 := by
  rw [countBD_eq_filter isHol s e, countBD_eq_filter isHol s e2]
  by_cases hse : s ≤ e
  · have hr : List.range' s (e2 - s) =
        List.range' s (e - s) ++ List.range' (s + (e - s)) (e2 - e) := by
      have := List.range'_append_1 s (e - s) (e2 - e)
      rw [this]
      congr 1
      omega
    rw [hr, List.filter_append, List.length_append]
    omega
  · have he0 : e - s = 0 := by omega
    rw [he0]
    exact Nat.zero_le _

lemma sum_map_single_q {β : Type} [DecidableEq β] :
    ∀ (B : List β), B.Nodup → ∀ (c : β), c ∈ B → ∀ (q : ℚ),
      (B.map (fun b => if c = b then q else 0)).sum = q := by
  intro B
  induction B with
  | nil =>
    intro _ c hc _
    exact absurd hc (List.not_mem_nil c)
  | cons b B ihB =>
    intro hnd c hc q
    simp only [List.map_cons, List.sum_cons]
    rcases List.mem_cons.mp hc with hcb | hcB
    · subst hcb
      rw [if_pos rfl, List.sum_eq_zero (by
        intro y hy
        obtain ⟨x, hx, hxy⟩ := List.mem_map.mp hy
        rw [← hxy, if_neg (by
          intro hcx
          exact (List.nodup_cons.mp hnd).1 (hcx ▸ hx))])]
      ring
    · rw [if_neg (by
        intro hcb
        exact (List.nodup_cons.mp hnd).1 (hcb ▸ hcB)),
        ihB (List.nodup_cons.mp hnd).2 c hcB q]
      ring

/-- Summing group sums over any duplicate-free cover of the keys recovers
the total sum. -/
lemma sum_groups_over {α β : Type} [DecidableEq β] (f : α → β) (g : α → ℚ) :
    ∀ (l : List α) (B : List β), B.Nodup → (∀ x ∈ l, f x ∈ B) →
      (B.map (fun b => ((l.filter (fun x => decide (f x = b))).map g).sum)).sum =
        (l.map g).sum := by
  intro l
  induction l with
  | nil =>
    intro B _ _
    simp only [List.filter_nil, List.map_nil, List.sum_nil]
    exact List.sum_eq_zero (by
      intro y hy
      obtain ⟨b, _, hby⟩ := List.mem_map.mp hy
      exact hby.symm)
  | cons a l ihl =>
    intro B hB hcov
    have h1 : ∀ b, (((a :: l).filter (fun x => decide (f x = b))).map g).sum =
        (if f a = b then g a else 0) +
          ((l.filter (fun x => decide (f x = b))).map g).sum := by
      intro b
      rw [List.filter_cons]
      by_cases hf : f a = b
      · rw [if_pos (by simpa using hf), List.map_cons, List.sum_cons, if_pos hf]
      · rw [if_neg (by simpa using hf), if_neg hf]
        ring
    rw [List.map_congr_left (fun b _ => h1 b), List.sum_map_add,
      sum_map_single_q B hB (f a) (hcov a (List.mem_cons_self a l)) (g a),
      ihl B hB (fun x hx => hcov x (List.mem_cons_of_mem a hx)),
      List.map_cons, List.sum_cons]

/-- Grouping the root issues by assignee key partitions the scope sum. -/
lemma assigneeScope_partition (issues : List Issue) (est : Nat → ℚ) :
    ((assigneeKeys issues).map (fun a => assigneeScope issues est a)).sum =
      scopeHours issues est := by
  unfold assigneeKeys assigneeScope scopeHours
  exact sum_groups_over Issue.assigned_to_id (fun iss => est iss.id) (rootsOf issues)
    ((rootsOf issues).map Issue.assigned_to_id).dedup (List.nodup_dedup _)
    (fun x hx => List.mem_dedup.mpr (List.mem_map_of_mem Issue.assigned_to_id hx))

lemma assigneeScope_nonneg (issues : List Issue) (est : Nat → ℚ)
    (hpos : ∀ i, 0 ≤ est i) (a : Option Nat) : 0 ≤ assigneeScope issues est a := by
  apply List.sum_nonneg
  intro y hy
  obtain ⟨iss, _, hiy⟩ := List.mem_map.mp hy
  exact hiy ▸ hpos iss.id

/-- Dropping the zero-scope keys does not change the scope sum. -/
lemma assigneeSnapshots_scope_sum (issues : List Issue) (est : Nat → ℚ)
    (done : List String) (date : Nat) (ttype : String) (tid : Nat)
    (hpos : ∀ i, 0 ≤ est i) :
    ((assigneeSnapshots issues est done date ttype tid).map
      AssigneeSnapshot.scope_hours).sum =
      ((assigneeKeys issues).map (fun a => assigneeScope issues est a)).sum := by
  unfold assigneeSnapshots
  induction assigneeKeys issues with
  | nil => rfl
  | cons a keys ihk =>
    rw [List.filterMap_cons, List.map_cons, List.sum_cons]
    by_cases hs : 0 < assigneeScope issues est a
    · rw [if_pos hs, List.map_cons, List.sum_cons, ihk]
    · rw [if_neg hs]
      have h0 : assigneeScope issues est a = 0 :=
        le_antisymm (not_lt.mp hs) (assigneeScope_nonneg issues est hpos a)
      rw [ihk, h0]
      ring

lemma assigneeScope_pos_mem {issues : List Issue} {est : Nat → ℚ} {a : Option Nat}
    (h : 0 < assigneeScope issues est a) : a ∈ assigneeKeys issues := by
  unfold assigneeScope at h
  rcases hfe : (rootsOf issues).filter (fun iss => decide (iss.assigned_to_id = a)) with
    _ | ⟨iss0, rest⟩
  · rw [hfe] at h
    simp at h
  · have hmem : iss0 ∈ (rootsOf issues).filter
        (fun iss => decide (iss.assigned_to_id = a)) := by
      rw [hfe]
      exact List.mem_cons_self iss0 rest
    have := List.mem_filter.mp hmem
    have ha : iss0.assigned_to_id = a := by simpa using this.2
    exact List.mem_dedup.mpr (ha ▸ List.mem_map_of_mem Issue.assigned_to_id this.1)

/-- A per-assignee row for key `a` is emitted iff that key's scope sum is
positive (keys with no rows have an empty filtered group, whose sum is 0). -/
lemma assigneeSnapshots_mem_iff (issues : List Issue) (est : Nat → ℚ)
    (done : List String) (date : Nat) (ttype : String) (tid : Nat) (a : Option Nat) :
    (∃ snap ∈ assigneeSnapshots issues est done date ttype tid,
      snap.assigned_to_id = a) ↔ 0 < assigneeScope issues est a := by
  constructor
  · rintro ⟨snap, hmem, hkey⟩
    obtain ⟨a2, ha2, hsn⟩ := List.mem_filterMap.mp hmem
    by_cases hs : 0 < assigneeScope issues est a2
    · rw [if_pos hs] at hsn
      have hrec := Option.some.inj hsn
      have hkey2 : snap.assigned_to_id = a2 := by rw [← hrec]
      rw [hkey2.symm.trans hkey] at hs
      exact hs
    · rw [if_neg hs] at hsn
      exact Option.noConfusion hsn
  · intro h
    exact ⟨_, List.mem_filterMap.mpr ⟨a, assigneeScope_pos_mem h, if_pos h⟩, rfl⟩

/-- An issue whose `parent_id` points outside the working set is not rooted:
it gets no entry in the estimates mapping and it is not among the root
issues the snapshot aggregation sums over. -/
lemma orphan_excluded_aux {issues : List Issue} (hN : (idsOf issues).Nodup)
    {iss : Issue} (hmem : iss ∈ issues) {p : Nat} (hpar : iss.parent_id = some p)
    (habs : findIssue issues p = none) :
    ¬ Rooted issues iss.id ∧ effMap issues iss.id = none ∧ iss ∉ rootsOf issues := by
  have hnr : ¬ Rooted issues iss.id := by
    intro h
    cases h with
    | root iss2 _ hmem2 hid2 hpar2 =>
      have heq : iss2 = iss := id_unique hN hmem2 hmem hid2
      rw [heq, hpar] at hpar2
      exact Option.noConfusion hpar2
    | child iss2 _ p2 hmem2 hid2 hpar2 hp =>
      have heq : iss2 = iss := id_unique hN hmem2 hmem hid2
      rw [heq, hpar] at hpar2
      have hpp : p = p2 := Option.some.inj hpar2
      obtain ⟨issp, hpmem, hpid⟩ := rooted_exists hp
      have : findIssue issues p = some issp := by
        rw [hpp, ← hpid]
        exact findIssue_of_mem hN hpmem
      rw [habs] at this
      exact Option.noConfusion this
  refine ⟨hnr, effMap_not_rooted hnr, ?_⟩
  intro hroot
  obtain ⟨_, hp⟩ := mem_rootsOf.mp hroot
  rw [hpar] at hp
  exact Option.noConfusion hp

lemma estOf_rooted {issues : List Issue} (hN : (idsOf issues).Nodup)
    {i : Nat} (hR : Rooted issues i) : estOf issues i = calcEffAux issues [] i := by
  unfold estOf
  rw [effMap_rooted hN hR]
  rfl

/-- C1. The effort resolver's effective-estimate mapping obeys the reference
rules: an issue of the working set with an entry (i.e. reachable from a
root, see C8) and no children gets its raw estimate (0 when null); a
non-leaf gets the sum of its direct children's effective estimates exactly
when every leaf descendant has a non-null raw estimate, and otherwise falls
back to its own raw estimate (0 when null) — never a partial sum. -/
theorem effective_estimate_rule (issues : List Issue)
    (hN : (idsOf issues).Nodup) (i : Nat) (hR : Rooted issues i) (iss : Issue)
    (hfind : findIssue issues i = some iss) :
    (childrenOf issues i = [] → effMap issues i = some (rawOr0 iss))
    ∧ (childrenOf issues i ≠ [] → LeafCovered issues i →
        effMap issues i =
          some (((childrenOf issues i).map (fun c => estOf issues c.id)).sum))
    ∧ (childrenOf issues i ≠ [] → ¬ LeafCovered issues i →
        effMap issues i = some (rawOr0 iss)) := by
  refine ⟨?_, ?_, ?_⟩
  · intro hnil
    rw [effMap_rooted hN hR, calcEff_leaf hfind hnil]
  · intro hne hcov
    rw [effMap_rooted hN hR, calcEff_parent_cov hN hR hfind hne hcov]
    congr 1
    apply congrArg List.sum
    apply List.map_congr_left
    intro c hc
    exact (estOf_rooted hN (rooted_of_child hc hR)).symm
  · intro hne hncov
    rw [effMap_rooted hN hR, calcEff_parent_fallback hN hR hfind hne hncov]

def issCov1 : Issue := ⟨1, 10, some 1, none, none, "New", none, none, none⟩

def issCov2 : Issue := ⟨2, 10, some 1, some 1, some 5, "New", none, none, none⟩

def issCov3 : Issue := ⟨3, 10, some 1, some 1, some 7, "New", none, none, none⟩

/-- A fully covered two-level hierarchy: a root without a raw estimate and
two estimated leaves. -/
def exCov : List Issue := [issCov1, issCov2, issCov3]

theorem effective_estimate_rule_witness :
    (idsOf exCov).Nodup ∧ findIssue exCov 1 = some issCov1 ∧
      childrenOf exCov 1 ≠ [] ∧ LeafCovered exCov 1 ∧
      effMap exCov 1 =
        some (((childrenOf exCov 1).map (fun c => estOf exCov c.id)).sum) := by
  have hN : (idsOf exCov).Nodup := by decide
  have hmem1 : issCov1 ∈ exCov := by decide
  have hR : Rooted exCov 1 := Rooted.root issCov1 1 hmem1 rfl rfl
  have hfind : findIssue exCov 1 = some issCov1 := by decide
  have hne : childrenOf exCov 1 ≠ [] := by decide
  have hcov : LeafCovered exCov 1 := by
    intro iss hmem hsub hleaf
    have : iss = issCov1 ∨ iss = issCov2 ∨ iss = issCov3 := by
      simpa [exCov] using hmem
    rcases this with h | h | h <;> subst h
    · exact absurd hleaf (by decide)
    · decide
    · decide
  exact ⟨hN, hfind, hne, hcov,
    (effective_estimate_rule exCov hN 1 hR issCov1 hfind).2.1 hne hcov⟩

/-- C8. On every finite working set — including sets whose `parent_id`
links form cycles — the resolver is a total function (this embedding is
definitionally total, mirroring that the source traversal never enters a
cycle: it starts only at `parent_id IS NULL` roots, and a cycle member is
never a descendant of such a root), and the estimates mapping has an entry
for an id exactly when that id is reachable by child links from some issue
with a null parent reference; unreachable issues are silently omitted. -/
theorem estimates_domain (issues : List Issue) (hN : (idsOf issues).Nodup)
    (i : Nat) : (effMap issues i).isSome = true ↔ Rooted issues i :=
  effMap_isSome_iff hN i

def issCycA : Issue := ⟨1, 10, some 1, some 2, some 4, "New", none, none, none⟩

def issCycB : Issue := ⟨2, 10, some 1, some 1, some 6, "New", none, none, none⟩

def issCycC : Issue := ⟨3, 10, some 1, none, some 7, "New", none, none, none⟩

/-- A working set with a two-issue parent cycle plus an ordinary root. -/
def exCyc : List Issue := [issCycA, issCycB, issCycC]

theorem estimates_domain_witness :
    (idsOf exCyc).Nodup ∧
      ((effMap exCyc 1).isSome = true ↔ Rooted exCyc 1) ∧
      effMap exCyc 1 = none ∧ (effMap exCyc 3).isSome = true := by
  have hN : (idsOf exCyc).Nodup := by decide
  have hmemA : issCycA ∈ exCyc := by decide
  have hmemB : issCycB ∈ exCyc := by decide
  have hmemC : issCycC ∈ exCyc := by decide
  have hanc : Anc exCyc 1 1 :=
    Anc.more issCycA 1 2 1 hmemA rfl rfl (Anc.one issCycB 2 1 hmemB rfl rfl)
  have hnr : ¬ Rooted exCyc 1 := fun h => rooted_not_anc_self hN h hanc
  refine ⟨hN, estimates_domain exCyc hN 1, effMap_not_rooted hnr, ?_⟩
  rw [effMap_rooted hN (Rooted.root issCycC 3 hmemC rfl rfl)]
  rfl

/-- An issue whose `parent_id` (99) does not exist in the working set. -/
def issOrph : Issue := ⟨1, 10, some 1, some 99, some 5, "New", none, none, none⟩

def exOrph : List Issue := [issOrph]

/-- C2 counterexample. A working set consisting of a single issue whose
`parent_id` is non-null but whose parent is absent: contrary to the claim,
the resolver does not treat it as a root — it gets no entry in the
effective-estimate mapping, and the aggregation's root filter
(`parent_id IS NULL`) excludes it, so the snapshot scope is 0, not its
5-hour estimate. -/
theorem orphan_counterexample :
    issOrph.parent_id = some 99 ∧ findIssue exOrph 99 = none ∧
      effMap exOrph 1 = none ∧ rootsOf exOrph = [] ∧
      scopeHours exOrph (fun i => estOf exOrph i) = 0 := by
  have hN : (idsOf exOrph).Nodup := by decide
  have hmem : issOrph ∈ exOrph := by decide
  have habs : findIssue exOrph 99 = none := by decide
  obtain ⟨_, heff, _⟩ := orphan_excluded_aux hN hmem (p := 99) rfl habs
  exact ⟨rfl, habs, heff, by decide, rfl⟩

/-- C2 (amended). An issue whose parent reference is non-null but whose
parent is absent from the working set is not treated as a root: it receives
no entry in the effective-estimate mapping (the traversal starts only from
`parent_id IS NULL` issues) and it is excluded from the root-only snapshot
aggregation, so it contributes to neither `scope_hours` nor
`remaining_hours`. -/
theorem orphan_parent_excluded (issues : List Issue) (hN : (idsOf issues).Nodup)
    (iss : Issue) (hmem : iss ∈ issues) (p : Nat) (hpar : iss.parent_id = some p)
    (habs : findIssue issues p = none) :
    effMap issues iss.id = none ∧ iss ∉ rootsOf issues := by
  obtain ⟨_, heff, hroot⟩ := orphan_excluded_aux hN hmem hpar habs
  exact ⟨heff, hroot⟩

theorem orphan_parent_excluded_witness :
    (idsOf exOrph).Nodup ∧ issOrph ∈ exOrph ∧ issOrph.parent_id = some 99 ∧
      findIssue exOrph 99 = none ∧
      (effMap exOrph issOrph.id = none ∧ issOrph ∉ rootsOf exOrph) :=
  ⟨by decide, by decide, rfl, by decide,
    orphan_parent_excluded exOrph (by decide) issOrph (by decide) 99 rfl (by decide)⟩

def issW1 : Issue := ⟨1, 10, some 1, none, some 0, "New", none, none, none⟩

def issW2 : Issue := ⟨2, 10, some 1, some 1, some 5, "New", none, none, none⟩

def issW3 : Issue := ⟨3, 10, some 1, some 1, none, "New", none, none, none⟩

/-- Root with raw estimate `0.0` (non-null!), one estimated child, one
unestimated leaf: the fallback branch is taken and the claim's "non-null"
condition holds, yet no warning is emitted because Python evaluates
`issue["estimated_hours"] and ...` by truthiness and `0.0` is falsy. -/
def exWarn : List Issue := [issW1, issW2, issW3]

/-- C3 counterexample. For issue 1 of `exWarn` the claim's premises hold:
it is a non-leaf lacking full leaf coverage, its own raw estimate is
non-null (`0.0`) and a direct child's raw estimate is non-null (`5.0`);
the claim then demands exactly one warning mentioning id 1, but the
resolver emits none. -/
theorem warning_counterexample :
    childrenOf exWarn 1 ≠ [] ∧ ¬ LeafCovered exWarn 1 ∧
      issW1.estimated_hours ≠ none ∧
      (∃ c ∈ childrenOf exWarn 1, c.estimated_hours ≠ none) ∧
      (resolverWarnings exWarn).count 1 = 0 := by
  have hN : (idsOf exWarn).Nodup := by decide
  have hmem1 : issW1 ∈ exWarn := by decide
  have hmem3 : issW3 ∈ exWarn := by decide
  have hR : Rooted exWarn 1 := Rooted.root issW1 1 hmem1 rfl rfl
  have hfind : findIssue exWarn 1 = some issW1 := by decide
  have hncov : ¬ LeafCovered exWarn 1 := by
    intro hcov
    exact hcov issW3 hmem3 (Or.inr (Anc.one issW3 3 1 hmem3 rfl rfl)) (by decide) rfl
  have hcount : (resolverWarnings exWarn).count 1 = 0 := by
    rw [resolverWarnings_count hN hR, warnCondB_eq hfind]
    have htr : pyTruthy issW1.estimated_hours = false := by decide
    rw [htr]
    simp
  exact ⟨by decide, hncov, by decide, ⟨issW2, by decide, by decide⟩, hcount⟩

/-- C3 (amended). For a non-leaf issue (with an entry in the mapping) that
lacks full leaf coverage, the resolver's warning list mentions that issue's
id exactly once iff the issue's own raw estimate is truthy (non-null *and
non-zero*) and some direct child's raw estimate is truthy; otherwise the
id is never mentioned. (The claim's "non-null" is amended to "non-null and
non-zero": the source tests Python truthiness, under which `0.0` counts as
absent.) -/
theorem warning_truthiness_rule (issues : List Issue)
    (hN : (idsOf issues).Nodup) (i : Nat) (hR : Rooted issues i) (iss : Issue)
    (hfind : findIssue issues i = some iss) (hne : childrenOf issues i ≠ [])
    (hncov : ¬ LeafCovered issues i) :
    (resolverWarnings issues).count i =
      (if pyTruthy iss.estimated_hours
          && (childrenOf issues i).any (fun c => pyTruthy c.estimated_hours)
        then 1 else 0) := by
  rw [resolverWarnings_count hN hR, warnCondB_eq hfind]
  have hempf : (childrenOf issues i).isEmpty = false := by
    cases hie : (childrenOf issues i).isEmpty
    · rfl
    · exact absurd (List.isEmpty_iff.mp hie) hne
  have hallf : ((childrenOf issues i).all
      (fun c => hasAllLeafEstimatesAux issues [] c.id)) = false := by
    cases hall : (childrenOf issues i).all
        (fun c => hasAllLeafEstimatesAux issues [] c.id)
    · rfl
    · exfalso
      apply hncov
      rw [leafCovered_parent hN hR hne]
      intro c hc
      exact (hasAllLeaf_iff hN (avail issues []).card [] c.id le_rfl
          (rooted_of_child hc hR) (by simp)).mp (List.all_eq_true.mp hall c hc)
  rw [hempf, hallf]
  simp

def issV1 : Issue := ⟨1, 10, some 1, none, some 2, "New", none, none, none⟩

/-- Same shape as `exWarn` but with a truthy (2.0) parent estimate: the
warning fires exactly once. -/
def exWarn2 : List Issue := [issV1, issW2, issW3]

theorem warning_truthiness_rule_witness :
    (idsOf exWarn2).Nodup ∧ findIssue exWarn2 1 = some issV1 ∧
      childrenOf exWarn2 1 ≠ [] ∧ ¬ LeafCovered exWarn2 1 ∧
      (resolverWarnings exWarn2).count 1 =
        (if pyTruthy issV1.estimated_hours
            && (childrenOf exWarn2 1).any (fun c => pyTruthy c.estimated_hours)
          then 1 else 0) ∧
      (pyTruthy issV1.estimated_hours
        && (childrenOf exWarn2 1).any (fun c => pyTruthy c.estimated_hours)) = true := by
  have hN : (idsOf exWarn2).Nodup := by decide
  have hmem1 : issV1 ∈ exWarn2 := by decide
  have hmem3 : issW3 ∈ exWarn2 := by decide
  have hR : Rooted exWarn2 1 := Rooted.root issV1 1 hmem1 rfl rfl
  have hfind : findIssue exWarn2 1 = some issV1 := by decide
  have hncov : ¬ LeafCovered exWarn2 1 := by
    intro hcov
    exact hcov issW3 hmem3 (Or.inr (Anc.one issW3 3 1 hmem3 rfl rfl)) (by decide) rfl
  exact ⟨hN, hfind, by decide, hncov,
    warning_truthiness_rule exWarn2 hN 1 hR issV1 hfind (by decide) hncov, by decide⟩

/-- C4. The version-mode ideal-line calculation satisfies its contract:
0 for an absent/unparsable boundary date or a window with no business days;
otherwise it equals the spec's reference formula (whose elapsed count is
clamped at the due date — the code's unclamped count agrees because the
remaining-days clamp absorbs the difference); at the window start it
returns the (non-negative) initial scope, and at or after the due date 0. -/
theorem ideal_remaining_contract (isHol : Nat → Bool) (scope : ℚ) :
    (∀ (vi : VersionInfo) (t : Nat), vi.start_date = none ∨ vi.due_date = none →
      calcIdealRemaining isHol vi t scope = 0)
    ∧ (∀ s d t, countBusinessDays isHol s d = 0 →
        calcIdealRemaining isHol ⟨some s, some d⟩ t scope = 0)
    ∧ (∀ s d t, 0 < countBusinessDays isHol s d →
        calcIdealRemaining isHol ⟨some s, some d⟩ t scope =
          idealRemainingSpec isHol s d t scope)
    ∧ (0 ≤ scope → ∀ s d, 0 < countBusinessDays isHol s d →
        calcIdealRemaining isHol ⟨some s, some d⟩ s scope = scope)
    ∧ (∀ s d t, d ≤ t → calcIdealRemaining isHol ⟨some s, some d⟩ t scope = 0) := by
  refine ⟨?_, ?_, ?_, ?_, ?_⟩
  · rintro ⟨sd, dd⟩ t h
    rcases h with h | h
    · have hs : sd = none := h
      subst hs
      cases dd <;> rfl
    · have hd : dd = none := h
      subst hd
      cases sd <;> rfl
  · intro s d t h
    simp only [calcIdealRemaining]
    rw [if_pos (by omega)]
  · intro s d t h
    simp only [calcIdealRemaining, idealRemainingSpec]
    rw [if_neg (by omega), if_neg (by omega)]
    suffices hnat : countBusinessDays isHol s d - countBusinessDays isHol s t =
        countBusinessDays isHol s d - countBusinessDays isHol s (min t d) by
      rw [hnat]
    by_cases htd : t ≤ d
    · rw [min_eq_left htd]
    · have h1 : countBusinessDays isHol s d ≤ countBusinessDays isHol s t :=
        countBD_mono isHol s (by omega)
      rw [min_eq_right (by omega)]
      omega
  · intro hscope s d h
    simp only [calcIdealRemaining]
    rw [if_neg (by omega), countBD_zero_of_le isHol (le_refl s), Nat.sub_zero]
    have hq : ((countBusinessDays isHol s d : ℚ)) ≠ 0 :=
      Nat.cast_ne_zero.mpr (by omega)
    rw [mul_div_assoc, div_self hq, mul_one, max_eq_right hscope]
  · intro s d t hdt
    simp only [calcIdealRemaining]
    by_cases h0 : countBusinessDays isHol s d ≤ 0
    · rw [if_pos h0]
    · rw [if_neg h0]
      have h1 : countBusinessDays isHol s d ≤ countBusinessDays isHol s t :=
        countBD_mono isHol s hdt
      have h2 : countBusinessDays isHol s d - countBusinessDays isHol s t = 0 := by
        omega
      rw [h2]
      simp

theorem ideal_remaining_contract_witness :
    (0 : ℚ) ≤ 10 ∧ 0 < countBusinessDays (fun _ => false) 739467 739471 ∧
      calcIdealRemaining (fun _ => false) ⟨some 739467, some 739471⟩ 739467 10 = 10 ∧
      calcIdealRemaining (fun _ => false) ⟨some 739467, some 739471⟩ 739474 10 = 0 := by
  have hpos : 0 < countBusinessDays (fun _ => false) 739467 739471 := by
    rw [countBD_eq_filter]
    decide
  refine ⟨by norm_num, hpos, ?_, ?_⟩
  · exact (ideal_remaining_contract (fun _ => false) 10).2.2.2.1 (by norm_num)
      739467 739471 hpos
  · exact (ideal_remaining_contract (fun _ => false) 10).2.2.2.2 739467 739471
      739474 (by norm_num)

/-- C7. The business-day counter counts exactly the days of the half-open
interval `[s, e)` whose weekday is Monday–Friday and which are not
holidays; it is 0 whenever `e ≤ s`; concretely, with no holidays in range,
Monday 2025-08-04 (ordinal 739467) to Friday 2025-08-08 exclusive gives 4,
and to Monday 2025-08-11 exclusive gives 5. -/
theorem business_days_contract (isHol : Nat → Bool) :
    (∀ s e, countBusinessDays isHol s e =
      ((List.range' s (e - s)).filter
        (fun d => decide (pyWeekday d < 5) && !isHol d)).length)
    ∧ (∀ s e, e ≤ s → countBusinessDays isHol s e = 0)
    ∧ ((∀ d, 739467 ≤ d → d < 739471 → isHol d = false) →
        countBusinessDays isHol 739467 739471 = 4)
    ∧ ((∀ d, 739467 ≤ d → d < 739474 → isHol d = false) →
        countBusinessDays isHol 739467 739474 = 5) := by
  refine ⟨countBD_eq_filter isHol, fun s e h => countBD_zero_of_le isHol h, ?_, ?_⟩
  · intro h
    have h0 : isHol 739467 = false := h _ (by norm_num) (by norm_num)
    have h1 : isHol 739468 = false := h _ (by norm_num) (by norm_num)
    have h2 : isHol 739469 = false := h _ (by norm_num) (by norm_num)
    have h3 : isHol 739470 = false := h _ (by norm_num) (by norm_num)
    rw [countBD_eq_filter]
    have hr : List.range' 739467 (739471 - 739467) = [739467, 739468, 739469, 739470] := by
      decide
    rw [hr]
    simp [List.filter, h0, h1, h2, h3, pyWeekday]
  · intro h
    have h0 : isHol 739467 = false := h _ (by norm_num) (by norm_num)
    have h1 : isHol 739468 = false := h _ (by norm_num) (by norm_num)
    have h2 : isHol 739469 = false := h _ (by norm_num) (by norm_num)
    have h3 : isHol 739470 = false := h _ (by norm_num) (by norm_num)
    have h4 : isHol 739471 = false := h _ (by norm_num) (by norm_num)
    rw [countBD_eq_filter]
    have hr : List.range' 739467 (739474 - 739467) =
        [739467, 739468, 739469, 739470, 739471, 739472, 739473] := by
      decide
    rw [hr]
    simp [List.filter, h0, h1, h2, h3, h4, pyWeekday]

theorem business_days_contract_witness :
    ((∀ d : Nat, 739467 ≤ d → d < 739471 → (fun _ => false) d = false) ∧
      countBusinessDays (fun _ => false) 739467 739471 = 4) ∧
    ((∀ d : Nat, 739467 ≤ d → d < 739474 → (fun _ => false) d = false) ∧
      countBusinessDays (fun _ => false) 739467 739474 = 5) :=
  ⟨⟨fun _ _ _ => rfl, (business_days_contract (fun _ => false)).2.2.1 (fun _ _ _ => rfl)⟩,
   ⟨fun _ _ _ => rfl, (business_days_contract (fun _ => false)).2.2.2 (fun _ _ _ => rfl)⟩⟩

/-- C5. For every (date, target), the per-assignee rows partition the
whole-scope sum: the `scope_hours` of the emitted rows add up to the
whole-scope `scope_hours` computed over the same root issues (given
non-negative-or-null raw estimates, so that suppressed zero-scope groups
lose nothing), root issues with no assignee are grouped under the null key
(the `∀ a` below includes `a = none`), and a row for key `a` exists iff
that group's scope is positive. -/
theorem assignee_partition (issues : List Issue) (done : List String)
    (date : Nat) (ttype : String) (tid : Nat)
    (hraw : ∀ iss ∈ issues, ∀ q, iss.estimated_hours = some q → 0 ≤ q) :
    ((assigneeSnapshots issues (fun i => estOf issues i) done date ttype tid).map
        AssigneeSnapshot.scope_hours).sum =
      scopeHours issues (fun i => estOf issues i)
    ∧ ∀ a : Option Nat,
        (∃ snap ∈ assigneeSnapshots issues (fun i => estOf issues i) done date ttype tid,
          snap.assigned_to_id = a) ↔
          0 < assigneeScope issues (fun i => estOf issues i) a := by
  constructor
  · rw [assigneeSnapshots_scope_sum issues (fun i => estOf issues i) done date ttype tid
      (fun i => estOf_nonneg hraw i)]
    exact assigneeScope_partition issues (fun i => estOf issues i)
  · intro a
    exact assigneeSnapshots_mem_iff issues (fun i => estOf issues i) done date ttype tid a

def issAsg1 : Issue := ⟨1, 10, some 1, none, some 5, "New", some 1, some "alice", none⟩

def issAsg2 : Issue := ⟨2, 10, some 1, none, some 3, "Done", none, none, none⟩

/-- Two root issues: one assigned, one unassigned and done. -/
def exAsg : List Issue := [issAsg1, issAsg2]

theorem assignee_partition_witness :
    (∀ iss ∈ exAsg, ∀ q : ℚ, iss.estimated_hours = some q → 0 ≤ q) ∧
      (((assigneeSnapshots exAsg (fun i => estOf exAsg i) ["Done"] 0 "version" 1).map
          AssigneeSnapshot.scope_hours).sum =
        scopeHours exAsg (fun i => estOf exAsg i)
      ∧ ∀ a : Option Nat,
          (∃ snap ∈ assigneeSnapshots exAsg (fun i => estOf exAsg i) ["Done"] 0 "version" 1,
            snap.assigned_to_id = a) ↔
            0 < assigneeScope exAsg (fun i => estOf exAsg i) a) := by
  have hraw : ∀ iss ∈ exAsg, ∀ q : ℚ, iss.estimated_hours = some q → 0 ≤ q := by
    intro iss hmem q hq
    have hh : iss = issAsg1 ∨ iss = issAsg2 := by simpa [exAsg] using hmem
    rcases hh with h | h <;> subst h
    · have h5 : (5 : ℚ) = q := Option.some.inj hq
      rw [← h5]
      norm_num
    · have h3 : (3 : ℚ) = q := Option.some.inj hq
      rw [← h3]
      norm_num
  exact ⟨hraw, assignee_partition exAsg ["Done"] 0 "version" 1 hraw⟩

/-- C6. Conservation: in every whole-scope snapshot and in every emitted
per-assignee row, `completed_hours + remaining_hours = scope_hours` holds
exactly — `completed_hours` is constructed as `scope - remaining` with no
independent computation, in both `_calculate_snapshot_metrics` and
`_calculate_assignee_snapshots`. -/
theorem hours_conservation (st : Store) (done : List String) (isHol : Nat → Bool)
    (ttype : String) (tid targetDate : Nat) (targetIssues issues2 : List Issue)
    (est : Nat → ℚ) (done2 : List String) (date : Nat) (tt : String) (ti : Nat) :
    ((calculateSnapshotMetrics st done isHol ttype tid targetDate targetIssues).completed_hours
      + (calculateSnapshotMetrics st done isHol ttype tid targetDate targetIssues).remaining_hours
      = (calculateSnapshotMetrics st done isHol ttype tid targetDate targetIssues).scope_hours)
    ∧ ∀ asnap ∈ assigneeSnapshots issues2 est done2 date tt ti,
        asnap.completed_hours + asnap.remaining_hours = asnap.scope_hours := by
  constructor
  · simp only [calculateSnapshotMetrics]
    ring
  · intro asnap hmem
    obtain ⟨a, _, hsn⟩ := List.mem_filterMap.mp hmem
    by_cases hs : 0 < assigneeScope issues2 est a
    · rw [if_pos hs] at hsn
      rw [← Option.some.inj hsn]
      simp only
      ring
    · rw [if_neg hs] at hsn
      exact Option.noConfusion hsn

/-- The row `_calculate_assignee_snapshots` emits for `exAsg`'s assignee 1
with the constant-1 estimates mapping. -/
def exRow : AssigneeSnapshot :=
  ⟨0, "version", 1, some 1, some "alice", 1, 1, 0⟩

theorem hours_conservation_witness :
    exRow ∈ assigneeSnapshots exAsg (fun _ => (1 : ℚ)) ["Done"] 0 "version" 1 ∧
      ((calculateSnapshotMetrics ⟨[], [], [], [], [], []⟩ ["Done"] (fun _ => false)
          "version" 1 0 []).completed_hours
        + (calculateSnapshotMetrics ⟨[], [], [], [], [], []⟩ ["Done"] (fun _ => false)
          "version" 1 0 []).remaining_hours
        = (calculateSnapshotMetrics ⟨[], [], [], [], [], []⟩ ["Done"] (fun _ => false)
          "version" 1 0 []).scope_hours) ∧
      exRow.completed_hours + exRow.remaining_hours = exRow.scope_hours := by
  have hkey : (some 1 : Option Nat) ∈ assigneeKeys exAsg := by decide
  have hs1 : assigneeScope exAsg (fun _ => (1 : ℚ)) (some 1) = 1 := by
    norm_num [assigneeScope, rootsOf, exAsg, issAsg1, issAsg2, List.filter_cons,
      List.filter_nil]
    simp
  have hr1 : assigneeRemaining exAsg (fun _ => (1 : ℚ)) ["Done"] (some 1) = 1 := by
    norm_num [assigneeRemaining, rootsOf, exAsg, issAsg1, issAsg2, List.filter_cons,
      List.filter_nil]
    simp
  have hname : firstAssigneeName exAsg (some 1) = some "alice" := by decide
  have hmem : exRow ∈ assigneeSnapshots exAsg (fun _ => (1 : ℚ)) ["Done"] 0 "version" 1 := by
    apply List.mem_filterMap.mpr
    refine ⟨some 1, hkey, ?_⟩
    show (if 0 < assigneeScope exAsg (fun _ => (1 : ℚ)) (some 1) then
        some ⟨0, "version", 1, some 1, firstAssigneeName exAsg (some 1),
          assigneeScope exAsg (fun _ => (1 : ℚ)) (some 1),
          assigneeRemaining exAsg (fun _ => (1 : ℚ)) ["Done"] (some 1),
          assigneeScope exAsg (fun _ => (1 : ℚ)) (some 1) -
            assigneeRemaining exAsg (fun _ => (1 : ℚ)) ["Done"] (some 1)⟩
      else none) = some exRow
    rw [hs1, hr1, hname, if_pos (by norm_num)]
    norm_num [exRow]
  exact ⟨hmem,
    (hours_conservation ⟨[], [], [], [], [], []⟩ ["Done"] (fun _ => false) "version" 1 0 []
      exAsg (fun _ => (1 : ℚ)) ["Done"] 0 "version" 1).1,
    (hours_conservation ⟨[], [], [], [], [], []⟩ ["Done"] (fun _ => false) "version" 1 0 []
      exAsg (fun _ => (1 : ℚ)) ["Done"] 0 "version" 1).2 exRow hmem⟩

/-- C9. When the named version (version mode) or the matching release
record (release mode) is absent from the store, `create_snapshot` raises
and performs no writes: the store — its snapshot rows, per-assignee rows
and metadata alike — is returned exactly as it was. -/
theorem target_not_found_no_writes (st : Store) (done : List String)
    (isHol : Nat → Bool) (projIdent : String) (releaseDue releaseName : Option String)
    (targetDate : Nat) :
    (∀ v, getVersionId st v = none →
      createSnapshot st done isHol projIdent (some v) releaseDue releaseName targetDate
        = (st, some "version not found"))
    ∧ (∀ dd pid, getProjectId st projIdent = some pid →
        getReleaseByCriteria st pid dd (releaseName.getD ("Release-" ++ dd)) = none →
        createSnapshot st done isHol projIdent none (some dd) releaseName targetDate
          = (st, some "release not found")) := by
  constructor
  · intro v hv
    simp [createSnapshot, determineTarget, prepareVersionMode, hv]
  · intro dd pid hpid hrel
    simp [createSnapshot, determineTarget, prepareReleaseMode, hpid, hrel]

/-- A store with one issue, no versions and no releases. -/
def exStore : Store := ⟨[], [], [issAsg1], [⟨0, "version", 9, 1, 1, 0, 0, 0, 0, 0⟩],
  [exRow], [("k", "v")]⟩

theorem target_not_found_no_writes_witness :
    (getVersionId exStore "v1.0" = none ∧
      createSnapshot exStore ["Done"] (fun _ => false) "proj" (some "v1.0") none none 0
        = (exStore, some "version not found")) ∧
    (getProjectId exStore "proj" = some 10 ∧
      getReleaseByCriteria exStore 10 "2025-01-01"
        ((none : Option String).getD ("Release-" ++ "2025-01-01")) = none ∧
      createSnapshot exStore ["Done"] (fun _ => false) "proj" none (some "2025-01-01") none 0
        = (exStore, some "release not found")) := by
  have hv : getVersionId exStore "v1.0" = none := by decide
  have hpid : getProjectId exStore "proj" = some 10 := by decide
  have hrel : getReleaseByCriteria exStore 10 "2025-01-01"
      ((none : Option String).getD ("Release-" ++ "2025-01-01")) = none := by decide
  exact ⟨⟨hv, (target_not_found_no_writes exStore ["Done"] (fun _ => false) "proj"
      none none 0).1 "v1.0" hv⟩,
    ⟨hpid, hrel, (target_not_found_no_writes exStore ["Done"] (fun _ => false) "proj"
      none none 0).2 "2025-01-01" 10 hpid hrel⟩⟩

/-- C10. Project-id resolution ignores the content of a non-numeric
identifier: it returns the first `project_id` of the issues table (or
null); consequently, for any two non-numeric project names the whole
release-mode snapshot run produces identical stores and results. -/
theorem project_id_content_independent (st : Store) (a b : String)
    (ha : isDigitString a = false) (hb : isDigitString b = false) :
    getProjectId st a = (st.issues.map Issue.project_id).head?
    ∧ getProjectId st a = getProjectId st b
    ∧ ∀ (done : List String) (isHol : Nat → Bool)
        (releaseDue releaseName : Option String) (targetDate : Nat),
        createSnapshot st done isHol a none releaseDue releaseName targetDate =
          createSnapshot st done isHol b none releaseDue releaseName targetDate := by
  have h1 : getProjectId st a = (st.issues.map Issue.project_id).head? := by
    unfold getProjectId
    rw [ha]
    rfl
  have h2 : getProjectId st b = (st.issues.map Issue.project_id).head? := by
    unfold getProjectId
    rw [hb]
    rfl
  have hpq : getProjectId st a = getProjectId st b := h1.trans h2.symm
  refine ⟨h1, hpq, ?_⟩
  intro done isHol releaseDue releaseName targetDate
  cases releaseDue with
  | none => rfl
  | some dd =>
    simp only [createSnapshot, determineTarget, prepareReleaseMode, getTargetIssues, hpq]

theorem project_id_content_independent_witness :
    isDigitString "alpha" = false ∧ isDigitString "web-app" = false ∧
      (getProjectId exStore "alpha" = (exStore.issues.map Issue.project_id).head?
      ∧ getProjectId exStore "alpha" = getProjectId exStore "web-app"
      ∧ ∀ (done : List String) (isHol : Nat → Bool)
          (releaseDue releaseName : Option String) (targetDate : Nat),
          createSnapshot exStore done isHol "alpha" none releaseDue releaseName targetDate =
            createSnapshot exStore done isHol "web-app" none releaseDue releaseName
              targetDate) :=
  ⟨by decide, by decide,
    project_id_content_independent exStore "alpha" "web-app" (by decide) (by decide)⟩

end RdBurndown
